import Mathlib

/-!
Verification development for the backup-manager repository.

The filesystem is shallowly embedded: a path is its list of name components
from the filesystem root, and a filesystem state is the finite list of
directory paths together with the finite association list of file paths and
their byte contents.  The reconciliation walk of Sync.clear_deleted
(src/src/backup_sync.py) is embedded as a depth-fueled recursion that mirrors
pathlib's lazy top-down walk: the directory listing of a node is computed from
the filesystem state as it is when the node is reached, so deletions performed
earlier in the same walk are visible to later listings, exactly as in the
source.  Deletions performed by the walk are modelled as succeeding (the
retry wrapper is modelled separately); logging calls are modelled as emitted
events.
-/

namespace BackupSync

/-- A filesystem path: the list of its name components from the root. -/
abbrev FPath := List String

/-- A filesystem state: the directories that exist and the files that exist
with their contents. -/
structure FS where
  dirs : List FPath
  files : List (FPath × String)
deriving DecidableEq, Repr

/-- The paths of all files of the filesystem. -/
def FS.filePaths (fs : FS) : List FPath := fs.files.map Prod.fst

/-- Path.is_dir: the path is an existing directory. -/
def FS.isDir (fs : FS) (p : FPath) : Bool := decide (p ∈ fs.dirs)

/-- Path.is_file: the path is an existing file. -/
def FS.isFile (fs : FS) (p : FPath) : Bool := decide (p ∈ fs.filePaths)

/-- Path.exists: the path is an existing directory or file. -/
def FS.pathExists (fs : FS) (p : FPath) : Bool := fs.isDir p || fs.isFile p

/-- Membership of a path in the filesystem, as a proposition. -/
def FS.Mem (fs : FS) (p : FPath) : Prop := p ∈ fs.dirs ∨ p ∈ fs.filePaths

instance (fs : FS) (p : FPath) : Decidable (FS.Mem fs p) := by
  unfold FS.Mem; infer_instance

/-- The content of a file (empty for a non-file, which the code never reads). -/
def FS.content (fs : FS) (p : FPath) : String :=
  ((fs.files.find? (fun e => decide (e.1 = p))).map Prod.snd).getD ""

/-- shutil.rmtree p: remove the directory p and everything below it. -/
def FS.rmtree (fs : FS) (p : FPath) : FS :=
  ⟨fs.dirs.filter (fun d => !decide (p <+: d)),
   fs.files.filter (fun e => !decide (p <+: e.1))⟩

/-- os.remove p: remove the single file p. -/
def FS.removeFile (fs : FS) (p : FPath) : FS :=
  ⟨fs.dirs, fs.files.filter (fun e => !decide (e.1 = p))⟩

/-- Write a file, overwriting any existing file at that path. -/
def FS.writeFile (fs : FS) (p : FPath) (c : String) : FS :=
  ⟨fs.dirs, (p, c) :: fs.files.filter (fun e => !decide (e.1 = p))⟩

/-- If q is the path of a direct child of directory p, its final name. -/
def childName (p q : FPath) : Option String :=
  if q.length = p.length + 1 ∧ p <+: q then (q.drop p.length).head? else none

/-- The names of the subdirectories directly inside p (scandir's dirnames). -/
def FS.childDirNames (fs : FS) (p : FPath) : List String :=
  fs.dirs.filterMap (childName p)

/-- The names of the files directly inside p (scandir's filenames). -/
def FS.childFileNames (fs : FS) (p : FPath) : List String :=
  fs.filePaths.filterMap (childName p)

/-- Observable events of a run: the classification decisions logged by
clear_deleted (logging.info lines), and the copy log/error lines of
safe_copy. -/
inductive Ev where
  | delTree : FPath → Ev
  | delFile : FPath → Ev
  | copyLog : FPath → FPath → Ev
  | copyErr : FPath → Ev
deriving DecidableEq, Repr

/-- The Sync object: the two configured roots (class Sync, backup_sync.py). -/
structure Sync where
  source : FPath
  backup : FPath
deriving DecidableEq, Repr

/-- One iteration of the inner file loop of Sync.clear_deleted: for a file
name inside the visited directory root, check the source-side counterpart and
delete the backup file (unless dry) when the counterpart is absent. -/
def clearFileStep (s : Sync) (dry : Bool) (root : FPath)
    (acc : FS × List Ev) (file : String) : FS × List Ev :=
  let srcEquiv := s.source ++ root.drop s.backup.length ++ [file]
  if acc.1.pathExists srcEquiv then acc
  else ((if dry then acc.1 else acc.1.removeFile (root ++ [file])),
        acc.2 ++ [Ev.delFile (root ++ [file])])

/-- The loop body of Sync.clear_deleted for one yielded walk triple
(root, dirs, files): skip a vanished root, delete the whole tree when the
source-side directory is absent, otherwise run the file loop. -/
def clearBody (s : Sync) (dry : Bool) (fs : FS) (root : FPath)
    (files : List String) : FS × List Ev :=
  if fs.pathExists root then
    let srcEquiv := s.source ++ root.drop s.backup.length
    if fs.pathExists srcEquiv then files.foldl (clearFileStep s dry root) (fs, [])
    else ((if dry then fs else fs.rmtree root), [Ev.delTree root])
  else (fs, [])

/-- The top-down walk of Sync.clear_deleted, mirroring pathlib's Path.walk:
a node whose scandir fails because it no longer is a directory is skipped
silently; otherwise its listing is taken from the current filesystem state,
the loop body runs, and the subdirectories of the listing are walked in
order on the state the body produced.  The fuel argument only bounds the
recursion depth; it is immaterial whenever it exceeds the depth of the tree,
because a directory with no surviving children recurses into nothing. -/
def clearVisit (s : Sync) (dry : Bool) : Nat → FS → FPath → FS × List Ev
  | fuel, fs, p =>
    if fs.isDir p then
      let r := clearBody s dry fs p (fs.childFileNames p)
      match fuel with
      | 0 => r
      | fuel' + 1 =>
        (fs.childDirNames p).foldl
          (fun acc n =>
            let r' := clearVisit s dry fuel' acc.1 (p ++ [n])
            (r'.1, acc.2 ++ r'.2)) r
    else (fs, [])

/-- An upper bound on the depth of the directory tree. -/
def FS.depthBound (fs : FS) : Nat := (fs.dirs.map List.length).foldr max 0

/-- Sync.clear_deleted: walk the backup tree and clear it of items no longer
found in the source, returning the final filesystem state and the emitted
deletion decisions. -/
def Sync.clear_deleted (s : Sync) (dry : Bool) (fs : FS) : FS × List Ev :=
  clearVisit s dry (fs.depthBound + 1) fs s.backup

/-- mkdir(parents=True, exist_ok=True): create the directory and all missing
ancestors; fails (second component false) when the path or an ancestor
already exists as a file. -/
def FS.mkdirParents (fs : FS) (p : FPath) : FS × Bool :=
  if p.inits.any (fun q => fs.isFile q) then (fs, false)
  else (⟨fs.dirs ++ p.inits.filter (fun q => !fs.isDir q), fs.files⟩, true)

/-- safe_copy (backup_sync.py): if src is a file, log and copy its bytes to
dst with shutil.copy2 (overwriting an existing file; copying into dst when
dst is an existing directory; failing when the destination parent directory
is missing); if src is a directory, create dst with all missing ancestors.
Every failure is caught and logged, never raised. -/
def safe_copy (fs : FS) (src dst : FPath) : FS × List Ev :=
  if fs.isFile src then
    let target := if fs.isDir dst then dst ++ [src.getLastD ""] else dst
    if fs.isDir target then (fs, [Ev.copyLog src dst, Ev.copyErr src])
    else if fs.isDir target.dropLast then
      (fs.writeFile target (fs.content src), [Ev.copyLog src dst])
    else (fs, [Ev.copyLog src dst, Ev.copyErr src])
  else if fs.isDir src then
    let m := fs.mkdirParents dst
    (m.1, if m.2 then [] else [Ev.copyErr src])
  else (fs, [])

/-- The top-down walk of sync_level over the source tree, mirroring
os.walk(source, topdown=True): when the visited directory is deeper than
max_depth (and max_depth is positive) descent is pruned and its files are not
copied; otherwise each file directly inside it is passed to safe_copy with
the backup-equivalent destination, then the subdirectories are walked. -/
def syncVisit (source backup : FPath) (max_depth : Nat) :
    Nat → FS → FPath → FS × List Ev
  | fuel, fs, p =>
    if fs.isDir p then
      let relPath := p.drop source.length
      if relPath.length > max_depth ∧ 0 < max_depth then (fs, [])
      else
        let destRoot := backup ++ relPath
        let r := (fs.childFileNames p).foldl
          (fun acc file =>
            let c := safe_copy acc.1 (p ++ [file]) (destRoot ++ [file])
            (c.1, acc.2 ++ c.2)) (fs, [])
        match fuel with
        | 0 => r
        | fuel' + 1 =>
          (fs.childDirNames p).foldl
            (fun acc n =>
              let r' := syncVisit source backup max_depth fuel' acc.1 (p ++ [n])
              (r'.1, acc.2 ++ r'.2)) r
    else (fs, [])

/-- sync_level (backup_sync.py): batch sync of the source tree into the backup
tree by directory depth.  The source's module-level source and backup roots
are parameters here; the depth and dry_run parameters of the source are
accepted and, exactly as in the source body, never read. -/
def sync_level (source backup : FPath) (depth max_depth : Nat)
    (dry_run : Bool) (fs : FS) : FS × List Ev :=
  syncVisit source backup max_depth (fs.depthBound + 1) fs source

/-- The observable outcome of one call to a function wrapped by
retry_on_failure: how many times the wrapped function was invoked, how many
warning and error lines were logged, how many inter-attempt sleeps happened,
and whether the wrapper gave up and returned None. -/
structure RetryResult where
  invocations : Nat
  warnings : Nat
  errors : Nat
  sleeps : Nat
  skipped : Bool
deriving DecidableEq, Repr

/-- The attempt loop of retry_on_failure, from a given attempt index with a
given number of later attempts still allowed; succeeds i tells whether the
i-th (0-based) invocation of the wrapped function returns normally. -/
def retryGo (succeeds : Nat → Bool) : Nat → Nat → RetryResult
  | attempt, 0 =>
    if succeeds attempt then ⟨1, 0, 0, 0, false⟩ else ⟨1, 0, 1, 0, true⟩
  | attempt, remaining + 1 =>
    if succeeds attempt then ⟨1, 0, 0, 0, false⟩
    else
      let rest := retryGo succeeds (attempt + 1) remaining
      ⟨rest.invocations + 1, rest.warnings + 1, rest.errors,
       rest.sleeps + 1, rest.skipped⟩

/-- retry_on_failure (backup_sync.py / utils.py): run the wrapped operation
up to max_retries + 1 times; log a warning and sleep after each failed
non-final attempt, log an error and return None after a failed final
attempt. -/
def retry_on_failure (max_retries : Nat) (succeeds : Nat → Bool) : RetryResult :=
  retryGo succeeds 0 max_retries

/-- The stored state of a constructed Sync object: the two argument strings,
as wrapped by pathlib.Path. -/
structure SyncArgs where
  source : String
  backup : String
deriving DecidableEq, Repr

/-- Sync.__init__ (backup_sync.py): self.source = Path(source);
self.backup = Path(backup).  pathlib's Path constructor applied to a str
never inspects the filesystem and never raises, whatever the string, so the
embedded constructor is total and the error channel is never used. -/
def syncConstruct (source backup : String) : Except String SyncArgs :=
  Except.ok ⟨source, backup⟩

/-! Concrete instances used by the test-vector parts of the claims and by
witnesses and counterexamples. -/

/-- The mirror pair of the spec's worked examples: source root src,
backup root bak. -/
def exSync : Sync := ⟨["src"], ["bak"]⟩

/-- The spec's selective-deletion example: source has dir1/file1.txt and
file2.txt; backup additionally has dir1/extra_file.txt. -/
def exFS : FS :=
  { dirs := [[], ["src"], ["src", "dir1"], ["bak"], ["bak", "dir1"]]
    files := [(["src", "dir1", "file1.txt"], "content1"),
              (["src", "file2.txt"], "content2"),
              (["bak", "dir1", "file1.txt"], "content1"),
              (["bak", "dir1", "extra_file.txt"], "extra content"),
              (["bak", "file2.txt"], "content2")] }

/-- The spec's subtree example, with an extra subdirectory inside the
orphaned directory: backup has dir3/orphaned_file.txt and dir3/sub while
the source has no dir3. -/
def exFS2 : FS :=
  { dirs := [[], ["src"], ["bak"], ["bak", "dir3"], ["bak", "dir3", "sub"]]
    files := [(["bak", "dir3", "orphaned_file.txt"], "orphaned")] }

/-- A mirror pair whose source root lies inside its backup root. -/
def exSyncNested : Sync := ⟨["b", "s"], ["b"]⟩

/-- A filesystem for the nested pair: the whole source tree is the backup
subdirectory s, holding one file f. -/
def exFSNested : FS :=
  { dirs := [[], ["b"], ["b", "s"]]
    files := [(["b", "s", "f"], "data")] }

/-- A replication scenario: source s has subdirectories d1 (missing on the
backup side) and d2 (present on the backup side, with a stale copy of g). -/
def exFS3 : FS :=
  { dirs := [[], ["s"], ["s", "d1"], ["s", "d2"], ["b"], ["b", "d2"]]
    files := [(["s", "d1", "f"], "x"), (["s", "d2", "g"], "y"),
              (["b", "d2", "g"], "old")] }

/-- A replication scenario where the backup lacks the directory d entirely. -/
def exFS8 : FS :=
  { dirs := [[], ["s"], ["s", "d"], ["b"]]
    files := [(["s", "d", "f"], "x")] }

/-! Structural well-formedness of a filesystem state, and its preservation
by the deletion operations. -/

/-- Every existing path's parent is an existing directory (hence, by
induction, so is every proper prefix); files are never the root. -/
def ParentClosed (fs : FS) : Prop :=
  (∀ q ∈ fs.dirs, q ≠ [] → q.dropLast ∈ fs.dirs) ∧
  (∀ q ∈ fs.filePaths, q ≠ [] ∧ q.dropLast ∈ fs.dirs)

/-- No path is both a directory and a file. -/
def KindsDisjoint (fs : FS) : Prop := ∀ q ∈ fs.dirs, q ∉ fs.filePaths

/-- The two roots name separate trees: neither is equal to or inside the
other. -/
def Sync.SeparateRoots (s : Sync) : Prop :=
  ¬ s.source <+: s.backup ∧ ¬ s.backup <+: s.source

instance (fs : FS) : Decidable (ParentClosed fs) := by
  unfold ParentClosed; infer_instance

instance (fs : FS) : Decidable (KindsDisjoint fs) := by
  unfold KindsDisjoint; infer_instance

instance (s : Sync) : Decidable s.SeparateRoots := by
  unfold Sync.SeparateRoots; infer_instance

/-- The depth bound carried by the walk: every directory below p fits in
the remaining fuel. -/
def DepthOK (fs : FS) (p : FPath) (fuel : Nat) : Prop :=
  ∀ d ∈ fs.dirs, p <+: d → d.length ≤ p.length + fuel

/-- Either D is (still) a directory, or nothing at or below D exists. -/
def SubtreeGone (fs : FS) (D : FPath) : Prop :=
  D ∈ fs.dirs ∨ ∀ q, D <+: q → ¬ FS.Mem fs q

/-- The source side of the state is intact relative to a base state:
the directory list is unchanged and every source-prefixed file entry reads
the same (sync_level only ever writes below the backup root). -/
def SrcIntact (source : FPath) (fs0 fs : FS) : Prop :=
  fs.dirs = fs0.dirs ∧
  (∀ e : FPath × String, source <+: e.1 → (e ∈ fs.files ↔ e ∈ fs0.files)) ∧
  (∀ q : FPath, source <+: q → fs.content q = fs0.content q)

/-- The goal state of one copy: the backup-equivalent path of the source
file D/n exists as a file holding the source bytes. -/
def CopyDone (source backup : FPath) (fs0 : FS) (D : FPath) (n : String)
    (fs : FS) : Prop :=
  fs.content (backup ++ D.drop source.length ++ [n]) = fs0.content (D ++ [n]) ∧
  backup ++ D.drop source.length ++ [n] ∈ fs.filePaths

/-! Basic bridging lemmas between the executable Bool tests and
propositional membership. -/

@[simp] theorem isDir_true_iff (fs : FS) (p : FPath) :
    fs.isDir p = true ↔ p ∈ fs.dirs := by simp [FS.isDir]

@[simp] theorem isDir_false_iff (fs : FS) (p : FPath) :
    fs.isDir p = false ↔ p ∉ fs.dirs := by simp [FS.isDir]

@[simp] theorem isFile_true_iff (fs : FS) (p : FPath) :
    fs.isFile p = true ↔ p ∈ fs.filePaths := by simp [FS.isFile]

@[simp] theorem pathExists_true_iff (fs : FS) (p : FPath) :
    fs.pathExists p = true ↔ FS.Mem fs p := by
  simp [FS.pathExists, FS.Mem, FS.isDir, FS.isFile]

@[simp] theorem pathExists_false_iff (fs : FS) (p : FPath) :
    fs.pathExists p = false ↔ ¬ FS.Mem fs p := by
  rw [Bool.eq_false_iff]
  exact not_congr (pathExists_true_iff fs p)

theorem mem_filePaths_iff {fs : FS} {p : FPath} :
    p ∈ fs.filePaths ↔ ∃ c, (p, c) ∈ fs.files := by
  constructor
  · intro h
    obtain ⟨⟨a, c⟩, hm, he⟩ := List.mem_map.mp h
    exact ⟨c, by rwa [show a = p from he] at hm⟩
  · rintro ⟨c, h⟩
    exact List.mem_map.mpr ⟨⟨p, c⟩, h, rfl⟩

/-! Membership through the filesystem mutators. -/

@[simp] theorem rmtree_dirs_mem {fs : FS} {p q : FPath} :
    q ∈ (fs.rmtree p).dirs ↔ q ∈ fs.dirs ∧ ¬ p <+: q := by
  simp [FS.rmtree, List.mem_filter]

@[simp] theorem rmtree_files_mem {fs : FS} {p : FPath} {e : FPath × String} :
    e ∈ (fs.rmtree p).files ↔ e ∈ fs.files ∧ ¬ p <+: e.1 := by
  simp [FS.rmtree, List.mem_filter]

@[simp] theorem rmtree_filePaths_mem {fs : FS} {p q : FPath} :
    q ∈ (fs.rmtree p).filePaths ↔ q ∈ fs.filePaths ∧ ¬ p <+: q := by
  simp only [mem_filePaths_iff, rmtree_files_mem]
  constructor
  · rintro ⟨c, h, hn⟩; exact ⟨⟨c, h⟩, hn⟩
  · rintro ⟨⟨c, h⟩, hn⟩; exact ⟨c, h, hn⟩

@[simp] theorem removeFile_dirs (fs : FS) (p : FPath) :
    (fs.removeFile p).dirs = fs.dirs := rfl

@[simp] theorem removeFile_files_mem {fs : FS} {p : FPath} {e : FPath × String} :
    e ∈ (fs.removeFile p).files ↔ e ∈ fs.files ∧ e.1 ≠ p := by
  simp [FS.removeFile, List.mem_filter]

@[simp] theorem removeFile_filePaths_mem {fs : FS} {p q : FPath} :
    q ∈ (fs.removeFile p).filePaths ↔ q ∈ fs.filePaths ∧ q ≠ p := by
  simp only [mem_filePaths_iff, removeFile_files_mem]
  constructor
  · rintro ⟨c, h, hn⟩; exact ⟨⟨c, h⟩, hn⟩
  · rintro ⟨⟨c, h⟩, hn⟩; exact ⟨c, h, hn⟩

@[simp] theorem writeFile_dirs (fs : FS) (p : FPath) (c : String) :
    (fs.writeFile p c).dirs = fs.dirs := rfl

theorem writeFile_filePaths_mem {fs : FS} {p q : FPath} {c : String} :
    q ∈ (fs.writeFile p c).filePaths ↔ q = p ∨ q ∈ fs.filePaths := by
  simp only [mem_filePaths_iff, FS.writeFile, List.mem_cons, List.mem_filter]
  constructor
  · rintro ⟨c', h | ⟨h, _⟩⟩
    · exact Or.inl (congrArg Prod.fst h)
    · exact Or.inr ⟨c', h⟩
  · rintro (rfl | ⟨c', h⟩)
    · exact ⟨c, Or.inl rfl⟩
    · by_cases hq : q = p
      · exact ⟨c, Or.inl (by rw [hq])⟩
      · exact ⟨c', Or.inr (by simp [h, hq])⟩

/-! Prefix path algebra. -/

theorem prefix_total {a b q : FPath} (ha : a <+: q) (hb : b <+: q) :
    a <+: b ∨ b <+: a := by
  rcases le_or_lt a.length b.length with h | h
  · exact Or.inl (List.prefix_of_prefix_length_le ha hb h)
  · exact Or.inr (List.prefix_of_prefix_length_le hb ha h.le)

theorem prefix_cons_decompose {p q : FPath} (h : p <+: q) (hne : q ≠ p) :
    ∃ n r, q = p ++ n :: r := by
  obtain ⟨t, rfl⟩ := h
  cases t with
  | nil => exact absurd (List.append_nil p) hne
  | cons n r => exact ⟨n, r, rfl⟩

theorem prefix_drop_mono {a b : FPath} (h : a <+: b) (k : Nat) :
    a.drop k <+: b.drop k := by
  obtain ⟨t, rfl⟩ := h
  rcases le_or_lt k a.length with hk | hk
  · rw [List.drop_append_of_le_length hk]
    exact (a.drop k).prefix_append t
  · rw [List.drop_eq_nil_of_le hk.le]
    exact List.nil_prefix

theorem append_prefix_append_iff (l : FPath) {a b : FPath} :
    l ++ a <+: l ++ b ↔ a <+: b := by
  constructor
  · rintro ⟨t, ht⟩
    exact ⟨t, by simpa [List.append_assoc] using ht⟩
  · rintro ⟨t, rfl⟩
    exact ⟨t, by simp [List.append_assoc]⟩

theorem drop_left_self (l r : FPath) : (l ++ r).drop l.length = r :=
  List.drop_left l r

theorem prefix_dropLast_of_proper {t q : FPath} (h : t <+: q) (hne : t ≠ q) :
    t <+: q.dropLast := by
  obtain ⟨n, r, rfl⟩ := prefix_cons_decompose h (Ne.symm hne)
  obtain ⟨r', a, hr⟩ : ∃ r' a, n :: r = r' ++ [a] := by
    rcases (n :: r).eq_nil_or_concat with h' | ⟨r', a, h'⟩
    · exact absurd h' (by simp)
    · exact ⟨r', a, by simpa [List.concat_eq_append] using h'⟩
  rw [hr, ← List.append_assoc, List.dropLast_concat]
  exact t.prefix_append r'

theorem dropLast_prefix_self (q : FPath) : q.dropLast <+: q := by
  rcases q.eq_nil_or_concat with h | ⟨r, a, h⟩
  · simp [h]
  · rw [h]
    simp only [List.concat_eq_append, List.dropLast_concat]
    exact r.prefix_append [a]

/-! Child listing lemmas. -/

theorem childName_eq_some {p q : FPath} {n : String} :
    childName p q = some n ↔ q = p ++ [n] := by
  unfold childName
  constructor
  · intro h
    by_cases hc : q.length = p.length + 1 ∧ p <+: q
    · rw [if_pos hc] at h
      obtain ⟨t, rfl⟩ := hc.2
      have hl : t.length = 1 := by
        have := hc.1
        rw [List.length_append] at this
        omega
      obtain ⟨a, rfl⟩ : ∃ a, t = [a] := by
        cases t with
        | nil => simp at hl
        | cons a t' =>
          cases t' with
          | nil => exact ⟨a, rfl⟩
          | cons b t'' => simp at hl
      rw [drop_left_self] at h
      simp at h
      rw [h]
    · rw [if_neg hc] at h
      exact absurd h (by simp)
  · rintro rfl
    rw [if_pos ⟨by simp, p.prefix_append [n]⟩, drop_left_self]
    rfl

theorem mem_childDirNames {fs : FS} {p : FPath} {n : String} :
    n ∈ fs.childDirNames p ↔ p ++ [n] ∈ fs.dirs := by
  unfold FS.childDirNames
  rw [List.mem_filterMap]
  constructor
  · rintro ⟨q, hq, h⟩
    rwa [← childName_eq_some.mp h]
  · intro h
    exact ⟨p ++ [n], h, childName_eq_some.mpr rfl⟩

theorem mem_childFileNames {fs : FS} {p : FPath} {n : String} :
    n ∈ fs.childFileNames p ↔ p ++ [n] ∈ fs.filePaths := by
  unfold FS.childFileNames
  rw [List.mem_filterMap]
  constructor
  · rintro ⟨q, hq, h⟩
    rwa [← childName_eq_some.mp h]
  · intro h
    exact ⟨p ++ [n], h, childName_eq_some.mpr rfl⟩

theorem ParentClosed.prefix_mem_dirs {fs : FS} (h : ParentClosed fs) :
    ∀ q, FS.Mem fs q → ∀ t, t <+: q → t ≠ q → t ∈ fs.dirs := by
  have key : ∀ l q, q.length = l →
      FS.Mem fs q → ∀ t, t <+: q → t ≠ q → t ∈ fs.dirs := by
    intro l
    induction l using Nat.strong_induction_on with
    | _ l IH =>
      intro q hl hq t ht htne
      have hstep : q ≠ [] ∧ q.dropLast ∈ fs.dirs := by
        rcases hq with hd | hf
        · refine ⟨?_, h.1 q hd ?_⟩ <;>
          · rintro rfl
            exact htne (List.prefix_nil.mp ht)
        · exact h.2 q hf
      have htd : t <+: q.dropLast := prefix_dropLast_of_proper ht htne
      by_cases hte : t = q.dropLast
      · rw [hte]; exact hstep.2
      · have hlen : q.dropLast.length < l := by
          rw [← hl, List.length_dropLast]
          have : q.length ≠ 0 := by simpa using hstep.1
          omega
        exact IH q.dropLast.length hlen q.dropLast rfl (Or.inl hstep.2) t htd hte
  exact fun q => key q.length q rfl

theorem ParentClosed.rmtree_pc {fs : FS} (h : ParentClosed fs) (p : FPath) :
    ParentClosed (fs.rmtree p) := by
  constructor
  · intro q hq hne
    rw [rmtree_dirs_mem] at hq ⊢
    refine ⟨h.1 q hq.1 hne, fun hpre => hq.2 (hpre.trans (dropLast_prefix_self q))⟩
  · intro q hq
    rw [rmtree_filePaths_mem] at hq
    obtain ⟨hne, hd⟩ := h.2 q hq.1
    rw [rmtree_dirs_mem]
    exact ⟨hne, hd, fun hpre => hq.2 (hpre.trans (dropLast_prefix_self q))⟩

theorem ParentClosed.removeFile_pc {fs : FS} (h : ParentClosed fs) (p : FPath) :
    ParentClosed (fs.removeFile p) := by
  constructor
  · intro q hq hne
    rw [removeFile_dirs] at hq ⊢
    exact h.1 q hq hne
  · intro q hq
    rw [removeFile_filePaths_mem] at hq
    rw [removeFile_dirs]
    exact h.2 q hq.1

theorem KindsDisjoint.rmtree_kd {fs : FS} (h : KindsDisjoint fs) (p : FPath) :
    KindsDisjoint (fs.rmtree p) := by
  intro q hq hf
  rw [rmtree_dirs_mem] at hq
  rw [rmtree_filePaths_mem] at hf
  exact h q hq.1 hf.1

theorem KindsDisjoint.removeFile_kd {fs : FS} (h : KindsDisjoint fs) (p : FPath) :
    KindsDisjoint (fs.removeFile p) := by
  intro q hq hf
  rw [removeFile_dirs] at hq
  rw [removeFile_filePaths_mem] at hf
  exact h q hq hf.1

/-- With separate roots, no path is below both roots. -/
theorem Sync.SeparateRoots.not_both {s : Sync} (h : s.SeparateRoots) {q : FPath}
    (hb : s.backup <+: q) (hs : s.source <+: q) : False := by
  rcases prefix_total hs hb with h' | h'
  · exact h.1 h'
  · exact h.2 h'

/-! A reusable invariant lemma for left folds. -/

theorem foldl_inv {α β : Type} (P : α → Prop) (step : α → β → α) :
    ∀ (l : List β) (init : α), P init →
      (∀ acc x, x ∈ l → P acc → P (step acc x)) → P (l.foldl step init) := by
  intro l
  induction l with
  | nil => exact fun init h _ => h
  | cons x l IH =>
    intro init h hstep
    exact IH (step init x) (hstep init x (by simp) h)
      (fun acc y hy hacc => hstep acc y (by simp [hy]) hacc)

/-! Elementary facts about the file-loop step and the loop body of
clear_deleted. -/

theorem clearFileStep_mem {s : Sync} {dry : Bool} {root : FPath}
    {acc : FS × List Ev} {file : String}
    (h : FS.Mem acc.1 (s.source ++ root.drop s.backup.length ++ [file])) :
    clearFileStep s dry root acc file = acc := by
  unfold clearFileStep
  rw [if_pos (by simpa using h)]

theorem clearFileStep_not_mem {s : Sync} {dry : Bool} {root : FPath}
    {acc : FS × List Ev} {file : String}
    (h : ¬ FS.Mem acc.1 (s.source ++ root.drop s.backup.length ++ [file])) :
    clearFileStep s dry root acc file =
      ((if dry then acc.1 else acc.1.removeFile (root ++ [file])),
       acc.2 ++ [Ev.delFile (root ++ [file])]) := by
  unfold clearFileStep
  rw [if_neg (by simpa using h)]

theorem clearFileStep_dirs (s : Sync) (dry : Bool) (root : FPath)
    (acc : FS × List Ev) (file : String) :
    (clearFileStep s dry root acc file).1.dirs = acc.1.dirs := by
  by_cases h : FS.Mem acc.1 (s.source ++ root.drop s.backup.length ++ [file])
  · rw [clearFileStep_mem h]
  · rw [clearFileStep_not_mem h]
    cases dry <;> simp

theorem clearFileStep_files_subset {s : Sync} {dry : Bool} {root : FPath}
    {acc : FS × List Ev} {file : String} {e : FPath × String}
    (h : e ∈ (clearFileStep s dry root acc file).1.files) : e ∈ acc.1.files := by
  by_cases hc : FS.Mem acc.1 (s.source ++ root.drop s.backup.length ++ [file])
  · rwa [clearFileStep_mem hc] at h
  · rw [clearFileStep_not_mem hc] at h
    cases dry with
    | true => exact h
    | false => exact (removeFile_files_mem.mp (by simpa using h)).1

theorem clearFileStep_files_frame {s : Sync} {dry : Bool} {root : FPath}
    {acc : FS × List Ev} {file : String} {e : FPath × String}
    (he : e ∈ acc.1.files) (h : e ∉ (clearFileStep s dry root acc file).1.files) :
    e.1 = root ++ [file] := by
  by_cases hc : FS.Mem acc.1 (s.source ++ root.drop s.backup.length ++ [file])
  · rw [clearFileStep_mem hc] at h
    exact absurd he h
  · rw [clearFileStep_not_mem hc] at h
    cases dry with
    | true => exact absurd he h
    | false =>
      by_contra hne
      exact h (by simpa using removeFile_files_mem.mpr ⟨he, hne⟩)

/-! Branch characterizations of the loop body and the walk. -/

theorem clearBody_vanished {s : Sync} {dry : Bool} {fs : FS} {root : FPath}
    {files : List String} (h : ¬ FS.Mem fs root) :
    clearBody s dry fs root files = (fs, []) := by
  unfold clearBody
  rw [if_neg]
  simpa using h

theorem clearBody_keep {s : Sync} {dry : Bool} {fs : FS} {root : FPath}
    {files : List String} (h1 : FS.Mem fs root)
    (h2 : FS.Mem fs (s.source ++ root.drop s.backup.length)) :
    clearBody s dry fs root files = files.foldl (clearFileStep s dry root) (fs, []) := by
  unfold clearBody
  rw [if_pos (by simpa using h1), if_pos (by simpa using h2)]

theorem clearBody_del {s : Sync} {dry : Bool} {fs : FS} {root : FPath}
    {files : List String} (h1 : FS.Mem fs root)
    (h2 : ¬ FS.Mem fs (s.source ++ root.drop s.backup.length)) :
    clearBody s dry fs root files =
      ((if dry then fs else fs.rmtree root), [Ev.delTree root]) := by
  unfold clearBody
  rw [if_pos (by simpa using h1), if_neg (by simpa using h2)]

theorem clearVisit_not_dir {s : Sync} {dry : Bool} {fuel : Nat} {fs : FS}
    {p : FPath} (h : p ∉ fs.dirs) : clearVisit s dry fuel fs p = (fs, []) := by
  unfold clearVisit
  rw [if_neg]
  simpa using h

theorem clearVisit_zero {s : Sync} {dry : Bool} {fs : FS} {p : FPath}
    (h : p ∈ fs.dirs) :
    clearVisit s dry 0 fs p = clearBody s dry fs p (fs.childFileNames p) := by
  unfold clearVisit
  rw [if_pos (by simpa using h)]

theorem clearVisit_succ {s : Sync} {dry : Bool} {fuel : Nat} {fs : FS} {p : FPath}
    (h : p ∈ fs.dirs) :
    clearVisit s dry (fuel + 1) fs p =
      (fs.childDirNames p).foldl
        (fun acc n =>
          let r' := clearVisit s dry fuel acc.1 (p ++ [n])
          (r'.1, acc.2 ++ r'.2))
        (clearBody s dry fs p (fs.childFileNames p)) := by
  conv_lhs => rw [clearVisit]
  rw [if_pos (by simpa using h)]

/-! Subset and frame lemmas for the loop body. -/

theorem fileFold_dirs (s : Sync) (dry : Bool) (root : FPath)
    (files : List String) (init : FS × List Ev) :
    (files.foldl (clearFileStep s dry root) init).1.dirs = init.1.dirs :=
  foldl_inv (fun acc : FS × List Ev => acc.1.dirs = init.1.dirs)
    (clearFileStep s dry root) files init rfl
    (fun acc x _ hacc => by
      show (clearFileStep s dry root acc x).1.dirs = init.1.dirs
      rw [clearFileStep_dirs]
      exact hacc)

theorem clearBody_dirs_subset {s : Sync} {dry : Bool} {fs : FS} {root : FPath}
    {files : List String} {q : FPath}
    (h : q ∈ (clearBody s dry fs root files).1.dirs) : q ∈ fs.dirs := by
  by_cases h1 : FS.Mem fs root
  · by_cases h2 : FS.Mem fs (s.source ++ root.drop s.backup.length)
    · rw [clearBody_keep h1 h2, fileFold_dirs] at h
      exact h
    · rw [clearBody_del h1 h2] at h
      cases dry with
      | true => exact h
      | false => exact (rmtree_dirs_mem.mp (by simpa using h)).1
  · rwa [clearBody_vanished h1] at h

theorem clearBody_files_subset {s : Sync} {dry : Bool} {fs : FS} {root : FPath}
    {files : List String} {e : FPath × String}
    (h : e ∈ (clearBody s dry fs root files).1.files) : e ∈ fs.files := by
  by_cases h1 : FS.Mem fs root
  · by_cases h2 : FS.Mem fs (s.source ++ root.drop s.backup.length)
    · rw [clearBody_keep h1 h2] at h
      exact foldl_inv (fun acc : FS × List Ev => e ∈ acc.1.files → e ∈ fs.files)
        (clearFileStep s dry root) files (fs, []) id
        (fun acc x _ hacc hm => hacc (clearFileStep_files_subset hm)) h
    · rw [clearBody_del h1 h2] at h
      cases dry with
      | true => exact h
      | false => exact (rmtree_files_mem.mp (by simpa using h)).1
  · rwa [clearBody_vanished h1] at h

theorem clearBody_dirs_frame {s : Sync} {dry : Bool} {fs : FS} {root : FPath}
    {files : List String} {q : FPath}
    (hq : q ∈ fs.dirs) (h : q ∉ (clearBody s dry fs root files).1.dirs) :
    root <+: q := by
  by_cases h1 : FS.Mem fs root
  · by_cases h2 : FS.Mem fs (s.source ++ root.drop s.backup.length)
    · rw [clearBody_keep h1 h2, fileFold_dirs] at h
      exact absurd hq h
    · rw [clearBody_del h1 h2] at h
      cases dry with
      | true => exact absurd hq h
      | false =>
        by_contra hpre
        exact h (by simpa using rmtree_dirs_mem.mpr ⟨hq, hpre⟩)
  · rw [clearBody_vanished h1] at h
    exact absurd hq h

theorem clearBody_files_frame {s : Sync} {dry : Bool} {fs : FS} {root : FPath}
    {files : List String} {e : FPath × String}
    (he : e ∈ fs.files) (h : e ∉ (clearBody s dry fs root files).1.files) :
    root <+: e.1 := by
  by_cases h1 : FS.Mem fs root
  · by_cases h2 : FS.Mem fs (s.source ++ root.drop s.backup.length)
    · rw [clearBody_keep h1 h2] at h
      exact foldl_inv
        (fun acc : FS × List Ev => e ∉ acc.1.files → root <+: e.1)
        (clearFileStep s dry root) files (fs, []) (fun hn => absurd he hn)
        (fun acc x _ hacc hm => by
          by_cases hin : e ∈ acc.1.files
          · rw [clearFileStep_files_frame hin hm]
            exact List.prefix_append root [x]
          · exact hacc hin) h
    · rw [clearBody_del h1 h2] at h
      cases dry with
      | true => exact absurd he h
      | false =>
        by_contra hpre
        exact h (by simpa using rmtree_files_mem.mpr ⟨he, hpre⟩)
  · rw [clearBody_vanished h1] at h
    exact absurd he h

/-! Subset, frame and preservation lemmas for the whole walk, by induction
on the fuel. -/

theorem clearVisit_dirs_subset {s : Sync} {dry : Bool} :
    ∀ (fuel : Nat) (fs : FS) (p q : FPath),
      q ∈ (clearVisit s dry fuel fs p).1.dirs → q ∈ fs.dirs := by
  intro fuel
  induction fuel with
  | zero =>
    intro fs p q h
    by_cases hd : p ∈ fs.dirs
    · rw [clearVisit_zero hd] at h
      exact clearBody_dirs_subset h
    · rwa [clearVisit_not_dir hd] at h
  | succ fuel IH =>
    intro fs p q h
    by_cases hd : p ∈ fs.dirs
    · rw [clearVisit_succ hd] at h
      exact foldl_inv (fun acc : FS × List Ev => q ∈ acc.1.dirs → q ∈ fs.dirs)
        (fun acc n =>
          let r' := clearVisit s dry fuel acc.1 (p ++ [n])
          (r'.1, acc.2 ++ r'.2))
        (fs.childDirNames p)
        (clearBody s dry fs p (fs.childFileNames p))
        (fun hq => clearBody_dirs_subset hq)
        (fun acc x _ hacc hq => hacc (IH acc.1 (p ++ [x]) q hq)) h
    · rwa [clearVisit_not_dir hd] at h

theorem clearVisit_files_subset {s : Sync} {dry : Bool} :
    ∀ (fuel : Nat) (fs : FS) (p : FPath) (e : FPath × String),
      e ∈ (clearVisit s dry fuel fs p).1.files → e ∈ fs.files := by
  intro fuel
  induction fuel with
  | zero =>
    intro fs p e h
    by_cases hd : p ∈ fs.dirs
    · rw [clearVisit_zero hd] at h
      exact clearBody_files_subset h
    · rwa [clearVisit_not_dir hd] at h
  | succ fuel IH =>
    intro fs p e h
    by_cases hd : p ∈ fs.dirs
    · rw [clearVisit_succ hd] at h
      exact foldl_inv (fun acc : FS × List Ev => e ∈ acc.1.files → e ∈ fs.files)
        (fun acc n =>
          let r' := clearVisit s dry fuel acc.1 (p ++ [n])
          (r'.1, acc.2 ++ r'.2))
        (fs.childDirNames p)
        (clearBody s dry fs p (fs.childFileNames p))
        (fun hq => clearBody_files_subset hq)
        (fun acc x _ hacc hq => hacc (IH acc.1 (p ++ [x]) e hq)) h
    · rwa [clearVisit_not_dir hd] at h

theorem clearVisit_dirs_frame {s : Sync} {dry : Bool} :
    ∀ (fuel : Nat) (fs : FS) (p q : FPath), q ∈ fs.dirs →
      q ∉ (clearVisit s dry fuel fs p).1.dirs → p <+: q := by
  intro fuel
  induction fuel with
  | zero =>
    intro fs p q hq h
    by_cases hd : p ∈ fs.dirs
    · rw [clearVisit_zero hd] at h
      exact clearBody_dirs_frame hq h
    · rw [clearVisit_not_dir hd] at h
      exact absurd hq h
  | succ fuel IH =>
    intro fs p q hq h
    by_cases hd : p ∈ fs.dirs
    · rw [clearVisit_succ hd] at h
      exact foldl_inv (fun acc : FS × List Ev => q ∉ acc.1.dirs → p <+: q)
        (fun acc n =>
          let r' := clearVisit s dry fuel acc.1 (p ++ [n])
          (r'.1, acc.2 ++ r'.2))
        (fs.childDirNames p)
        (clearBody s dry fs p (fs.childFileNames p))
        (fun hn => clearBody_dirs_frame hq hn)
        (fun acc x _ hacc hn => by
          by_cases hin : q ∈ acc.1.dirs
          · exact (p.prefix_append [x]).trans (IH acc.1 (p ++ [x]) q hin hn)
          · exact hacc hin) h
    · rw [clearVisit_not_dir hd] at h
      exact absurd hq h

theorem clearVisit_files_frame {s : Sync} {dry : Bool} :
    ∀ (fuel : Nat) (fs : FS) (p : FPath) (e : FPath × String), e ∈ fs.files →
      e ∉ (clearVisit s dry fuel fs p).1.files → p <+: e.1 := by
  intro fuel
  induction fuel with
  | zero =>
    intro fs p e he h
    by_cases hd : p ∈ fs.dirs
    · rw [clearVisit_zero hd] at h
      exact clearBody_files_frame he h
    · rw [clearVisit_not_dir hd] at h
      exact absurd he h
  | succ fuel IH =>
    intro fs p e he h
    by_cases hd : p ∈ fs.dirs
    · rw [clearVisit_succ hd] at h
      exact foldl_inv (fun acc : FS × List Ev => e ∉ acc.1.files → p <+: e.1)
        (fun acc n =>
          let r' := clearVisit s dry fuel acc.1 (p ++ [n])
          (r'.1, acc.2 ++ r'.2))
        (fs.childDirNames p)
        (clearBody s dry fs p (fs.childFileNames p))
        (fun hn => clearBody_files_frame he hn)
        (fun acc x _ hacc hn => by
          by_cases hin : e ∈ acc.1.files
          · exact (p.prefix_append [x]).trans (IH acc.1 (p ++ [x]) e hin hn)
          · exact hacc hin) h
    · rw [clearVisit_not_dir hd] at h
      exact absurd he h

theorem clearBody_pc {s : Sync} {dry : Bool} {fs : FS} {root : FPath}
    {files : List String} (h : ParentClosed fs) :
    ParentClosed (clearBody s dry fs root files).1 := by
  by_cases h1 : FS.Mem fs root
  · by_cases h2 : FS.Mem fs (s.source ++ root.drop s.backup.length)
    · rw [clearBody_keep h1 h2]
      exact foldl_inv (fun acc : FS × List Ev => ParentClosed acc.1)
        (clearFileStep s dry root) files (fs, []) h
        (fun acc x _ hacc => by
          show ParentClosed (clearFileStep s dry root acc x).1
          by_cases hc : FS.Mem acc.1
              (s.source ++ root.drop s.backup.length ++ [x])
          · rw [clearFileStep_mem hc]
            exact hacc
          · rw [clearFileStep_not_mem hc]
            cases dry with
            | true => exact hacc
            | false => exact hacc.removeFile_pc (root ++ [x]))
    · rw [clearBody_del h1 h2]
      cases dry with
      | true => exact h
      | false => exact h.rmtree_pc root
  · rw [clearBody_vanished h1]
    exact h

theorem clearVisit_pc {s : Sync} {dry : Bool} :
    ∀ (fuel : Nat) (fs : FS) (p : FPath), ParentClosed fs →
      ParentClosed (clearVisit s dry fuel fs p).1 := by
  intro fuel
  induction fuel with
  | zero =>
    intro fs p h
    by_cases hd : p ∈ fs.dirs
    · rw [clearVisit_zero hd]
      exact clearBody_pc h
    · rw [clearVisit_not_dir hd]
      exact h
  | succ fuel IH =>
    intro fs p h
    by_cases hd : p ∈ fs.dirs
    · rw [clearVisit_succ hd]
      exact foldl_inv (fun acc : FS × List Ev => ParentClosed acc.1)
        (fun acc n =>
          let r' := clearVisit s dry fuel acc.1 (p ++ [n])
          (r'.1, acc.2 ++ r'.2))
        (fs.childDirNames p)
        (clearBody s dry fs p (fs.childFileNames p))
        (clearBody_pc h)
        (fun acc x _ hacc => IH acc.1 (p ++ [x]) hacc)
    · rw [clearVisit_not_dir hd]
      exact h

theorem clearBody_kd {s : Sync} {dry : Bool} {fs : FS} {root : FPath}
    {files : List String} (h : KindsDisjoint fs) :
    KindsDisjoint (clearBody s dry fs root files).1 := by
  by_cases h1 : FS.Mem fs root
  · by_cases h2 : FS.Mem fs (s.source ++ root.drop s.backup.length)
    · rw [clearBody_keep h1 h2]
      exact foldl_inv (fun acc : FS × List Ev => KindsDisjoint acc.1)
        (clearFileStep s dry root) files (fs, []) h
        (fun acc x _ hacc => by
          show KindsDisjoint (clearFileStep s dry root acc x).1
          by_cases hc : FS.Mem acc.1
              (s.source ++ root.drop s.backup.length ++ [x])
          · rw [clearFileStep_mem hc]
            exact hacc
          · rw [clearFileStep_not_mem hc]
            cases dry with
            | true => exact hacc
            | false => exact hacc.removeFile_kd (root ++ [x]))
    · rw [clearBody_del h1 h2]
      cases dry with
      | true => exact h
      | false => exact h.rmtree_kd root
  · rw [clearBody_vanished h1]
    exact h

theorem clearVisit_kd {s : Sync} {dry : Bool} :
    ∀ (fuel : Nat) (fs : FS) (p : FPath), KindsDisjoint fs →
      KindsDisjoint (clearVisit s dry fuel fs p).1 := by
  intro fuel
  induction fuel with
  | zero =>
    intro fs p h
    by_cases hd : p ∈ fs.dirs
    · rw [clearVisit_zero hd]
      exact clearBody_kd h
    · rw [clearVisit_not_dir hd]
      exact h
  | succ fuel IH =>
    intro fs p h
    by_cases hd : p ∈ fs.dirs
    · rw [clearVisit_succ hd]
      exact foldl_inv (fun acc : FS × List Ev => KindsDisjoint acc.1)
        (fun acc n =>
          let r' := clearVisit s dry fuel acc.1 (p ++ [n])
          (r'.1, acc.2 ++ r'.2))
        (fs.childDirNames p)
        (clearBody s dry fs p (fs.childFileNames p))
        (clearBody_kd h)
        (fun acc x _ hacc => IH acc.1 (p ++ [x]) hacc)
    · rw [clearVisit_not_dir hd]
      exact h

/-! With separate roots, nothing on the source side of the tree is touched
by the walk (in either direction of membership). -/

theorem clearVisit_src_dirs_stable {s : Sync} {dry : Bool} {fuel : Nat}
    {fs : FS} {p q : FPath} (hsep : s.SeparateRoots) (hbp : s.backup <+: p)
    (hq : s.source <+: q) :
    q ∈ (clearVisit s dry fuel fs p).1.dirs ↔ q ∈ fs.dirs := by
  constructor
  · exact clearVisit_dirs_subset fuel fs p q
  · intro h
    by_contra hn
    exact hsep.not_both (hbp.trans (clearVisit_dirs_frame fuel fs p q h hn)) hq

theorem clearVisit_src_files_stable {s : Sync} {dry : Bool} {fuel : Nat}
    {fs : FS} {p : FPath} {e : FPath × String} (hsep : s.SeparateRoots)
    (hbp : s.backup <+: p) (hq : s.source <+: e.1) :
    e ∈ (clearVisit s dry fuel fs p).1.files ↔ e ∈ fs.files := by
  constructor
  · exact clearVisit_files_subset fuel fs p e
  · intro h
    by_contra hn
    exact hsep.not_both (hbp.trans (clearVisit_files_frame fuel fs p e h hn)) hq

theorem clearVisit_src_mem_stable {s : Sync} {dry : Bool} {fuel : Nat}
    {fs : FS} {p q : FPath} (hsep : s.SeparateRoots) (hbp : s.backup <+: p)
    (hq : s.source <+: q) :
    FS.Mem (clearVisit s dry fuel fs p).1 q ↔ FS.Mem fs q := by
  unfold FS.Mem
  rw [clearVisit_src_dirs_stable hsep hbp hq]
  constructor
  · rintro (h | h)
    · exact Or.inl h
    · obtain ⟨c, hc⟩ := mem_filePaths_iff.mp h
      exact Or.inr (mem_filePaths_iff.mpr
        ⟨c, (clearVisit_src_files_stable hsep hbp hq).mp hc⟩)
  · rintro (h | h)
    · exact Or.inl h
    · obtain ⟨c, hc⟩ := mem_filePaths_iff.mp h
      exact Or.inr (mem_filePaths_iff.mpr
        ⟨c, (clearVisit_src_files_stable hsep hbp hq).mpr hc⟩)



/-! Dry-run leaves the filesystem untouched in clear_deleted. -/

theorem clearFileStep_dry_fs (s : Sync) (root : FPath) (acc : FS × List Ev)
    (file : String) : (clearFileStep s true root acc file).1 = acc.1 := by
  by_cases hc : FS.Mem acc.1 (s.source ++ root.drop s.backup.length ++ [file])
  · rw [clearFileStep_mem hc]
  · rw [clearFileStep_not_mem hc]
    simp

theorem clearBody_dry_fs (s : Sync) (fs : FS) (root : FPath)
    (files : List String) : (clearBody s true fs root files).1 = fs := by
  by_cases h1 : FS.Mem fs root
  · by_cases h2 : FS.Mem fs (s.source ++ root.drop s.backup.length)
    · rw [clearBody_keep h1 h2]
      exact foldl_inv (fun acc : FS × List Ev => acc.1 = fs)
        (clearFileStep s true root) files (fs, []) rfl
        (fun acc x _ hacc => by
          show (clearFileStep s true root acc x).1 = fs
          rw [clearFileStep_dry_fs]
          exact hacc)
    · rw [clearBody_del h1 h2]
      simp
  · rw [clearBody_vanished h1]

theorem clearVisit_dry_fs (s : Sync) :
    ∀ (fuel : Nat) (fs : FS) (p : FPath), (clearVisit s true fuel fs p).1 = fs := by
  intro fuel
  induction fuel with
  | zero =>
    intro fs p
    by_cases hd : p ∈ fs.dirs
    · rw [clearVisit_zero hd, clearBody_dry_fs]
    · rw [clearVisit_not_dir hd]
  | succ fuel IH =>
    intro fs p
    by_cases hd : p ∈ fs.dirs
    · rw [clearVisit_succ hd]
      exact foldl_inv (fun acc : FS × List Ev => acc.1 = fs)
        (fun acc n =>
          let r' := clearVisit s true fuel acc.1 (p ++ [n])
          (r'.1, acc.2 ++ r'.2))
        (fs.childDirNames p)
        (clearBody s true fs p (fs.childFileNames p))
        (clearBody_dry_fs s fs p (fs.childFileNames p))
        (fun acc x _ hacc => by
          show (clearVisit s true fuel acc.1 (p ++ [x])).1 = fs
          rw [IH acc.1 (p ++ [x])]
          exact hacc)
    · rw [clearVisit_not_dir hd]

/-! Retry accounting. -/

theorem retryGo_all_fail {succeeds : Nat → Bool} (h : ∀ i, succeeds i = false) :
    ∀ (remaining attempt : Nat),
      retryGo succeeds attempt remaining =
        ⟨remaining + 1, remaining, 1, remaining, true⟩ := by
  intro remaining
  induction remaining with
  | zero =>
    intro a
    simp [retryGo, h a]
  | succ r IH =>
    intro a
    simp [retryGo, h a, IH (a + 1)]

theorem retry_fail_then_ok {succeeds : Nat → Bool} (h0 : succeeds 0 = false)
    (h1 : succeeds 1 = true) :
    retry_on_failure 1 succeeds = ⟨2, 1, 0, 1, false⟩ := by
  unfold retry_on_failure
  simp [retryGo, h0, h1]

/-! The replicator never creates directories, and only ever adds file
entries. -/

theorem safe_copy_of_file {fs : FS} {src dst : FPath} (h : src ∈ fs.filePaths) :
    (safe_copy fs src dst).1.dirs = fs.dirs ∧
    (∀ q, q ∈ fs.filePaths → q ∈ (safe_copy fs src dst).1.filePaths) := by
  unfold safe_copy
  rw [if_pos (by simpa using h)]
  generalize (if fs.isDir dst = true then dst ++ [src.getLastD ""] else dst) = target
  by_cases h1 : fs.isDir target = true
  · rw [if_pos h1]
    exact ⟨rfl, fun q hq => hq⟩
  · rw [if_neg h1]
    by_cases h2 : fs.isDir target.dropLast = true
    · rw [if_pos h2]
      exact ⟨rfl, fun q hq => writeFile_filePaths_mem.mpr (Or.inr hq)⟩
    · rw [if_neg h2]
      exact ⟨rfl, fun q hq => hq⟩

theorem syncVisit_not_dir {source backup : FPath} {md fuel : Nat} {fs : FS}
    {p : FPath} (h : p ∉ fs.dirs) :
    syncVisit source backup md fuel fs p = (fs, []) := by
  unfold syncVisit
  rw [if_neg]
  simpa using h

theorem syncVisit_dirs_files (source backup : FPath) (md : Nat) :
    ∀ (fuel : Nat) (fs : FS) (p : FPath),
      (syncVisit source backup md fuel fs p).1.dirs = fs.dirs ∧
      (∀ q, q ∈ fs.filePaths →
        q ∈ (syncVisit source backup md fuel fs p).1.filePaths) := by
  have hstep : ∀ (fs : FS) (p : FPath) (acc : FS × List Ev) (x : String),
      x ∈ fs.childFileNames p →
      acc.1.dirs = fs.dirs → (∀ q, q ∈ fs.filePaths → q ∈ acc.1.filePaths) →
      ∀ dst, (safe_copy acc.1 (p ++ [x]) dst).1.dirs = fs.dirs ∧
        (∀ q, q ∈ fs.filePaths → q ∈ (safe_copy acc.1 (p ++ [x]) dst).1.filePaths) := by
    intro fs p acc x hx hd hf dst
    have hx' : p ++ [x] ∈ acc.1.filePaths := hf _ (mem_childFileNames.mp hx)
    obtain ⟨hd', hf'⟩ := @safe_copy_of_file acc.1 (p ++ [x]) dst hx'
    exact ⟨by rw [hd', hd], fun q hq => hf' q (hf q hq)⟩
  intro fuel
  induction fuel with
  | zero =>
    intro fs p
    by_cases hdir : p ∈ fs.dirs
    · unfold syncVisit
      rw [if_pos (by simpa using hdir)]
      by_cases hprune : ((p.drop source.length).length > md ∧ 0 < md)
      · rw [if_pos hprune]
        exact ⟨rfl, fun q hq => hq⟩
      · rw [if_neg hprune]
        exact foldl_inv (fun acc : FS × List Ev => acc.1.dirs = fs.dirs ∧
            (∀ q, q ∈ fs.filePaths → q ∈ acc.1.filePaths))
          _ (fs.childFileNames p) (fs, []) ⟨rfl, fun q hq => hq⟩
          (fun acc x hx hacc => hstep fs p acc x hx hacc.1 hacc.2 _)
    · rw [syncVisit_not_dir hdir]
      exact ⟨rfl, fun q hq => hq⟩
  | succ fuel IH =>
    intro fs p
    by_cases hdir : p ∈ fs.dirs
    · unfold syncVisit
      rw [if_pos (by simpa using hdir)]
      by_cases hprune : ((p.drop source.length).length > md ∧ 0 < md)
      · rw [if_pos hprune]
        exact ⟨rfl, fun q hq => hq⟩
      · rw [if_neg hprune]
        refine foldl_inv (fun acc : FS × List Ev => acc.1.dirs = fs.dirs ∧
            (∀ q, q ∈ fs.filePaths → q ∈ acc.1.filePaths))
          _ (fs.childDirNames p) _ ?_ ?_
        · exact foldl_inv (fun acc : FS × List Ev => acc.1.dirs = fs.dirs ∧
              (∀ q, q ∈ fs.filePaths → q ∈ acc.1.filePaths))
            _ (fs.childFileNames p) (fs, []) ⟨rfl, fun q hq => hq⟩
            (fun acc x hx hacc => hstep fs p acc x hx hacc.1 hacc.2 _)
        · intro acc x _ hacc
          obtain ⟨hd', hf'⟩ := IH acc.1 (p ++ [x])
          exact ⟨by rw [hd', hacc.1], fun q hq => hf' q (hacc.2 q hq)⟩
    · rw [syncVisit_not_dir hdir]
      exact ⟨rfl, fun q hq => hq⟩

theorem sync_level_dirs (source backup : FPath) (depth max_depth : Nat)
    (dry_run : Bool) (fs : FS) :
    (sync_level source backup depth max_depth dry_run fs).1.dirs = fs.dirs :=
  (syncVisit_dirs_files source backup max_depth (fs.depthBound + 1) fs source).1

/-! Further toolkit lemmas for the main inductions: membership monotonicity,
depth bounds, and the behavior of the inner file loop. -/

theorem prefix_snoc_cases {D p : FPath} {x : String} (h : D <+: p ++ [x]) :
    D <+: p ∨ D = p ++ [x] := by
  rcases le_or_lt D.length p.length with hl | hl
  · exact Or.inl (List.prefix_of_prefix_length_le h (p.prefix_append [x]) hl)
  · right
    have hle : D.length ≤ (p ++ [x]).length := h.length_le
    have : D.length = (p ++ [x]).length := by
      rw [List.length_append]
      rw [List.length_append] at hle
      simpa using Nat.le_antisymm hle (by simpa using hl)
    exact h.eq_of_length this

theorem drop_append_snoc {p : FPath} {x : String} {k : Nat} (h : k ≤ p.length) :
    (p ++ [x]).drop k = p.drop k ++ [x] :=
  List.drop_append_of_le_length h

theorem snoc_ne_self (p : FPath) (x : String) : p ++ [x] ≠ p := by
  intro h
  have := congrArg List.length h
  simp at this

theorem clearFileStep_filePaths_subset {s : Sync} {dry : Bool} {root : FPath}
    {acc : FS × List Ev} {file : String} {q : FPath}
    (h : q ∈ (clearFileStep s dry root acc file).1.filePaths) :
    q ∈ acc.1.filePaths := by
  obtain ⟨c, hc⟩ := mem_filePaths_iff.mp h
  exact mem_filePaths_iff.mpr ⟨c, clearFileStep_files_subset hc⟩

theorem clearFileStep_mem_mono {s : Sync} {dry : Bool} {root : FPath}
    {acc : FS × List Ev} {file : String} {q : FPath}
    (h : FS.Mem (clearFileStep s dry root acc file).1 q) : FS.Mem acc.1 q := by
  rcases h with h | h
  · rw [clearFileStep_dirs] at h
    exact Or.inl h
  · exact Or.inr (clearFileStep_filePaths_subset h)

theorem clearVisit_filePaths_subset {s : Sync} {dry : Bool} {fuel : Nat}
    {fs : FS} {p q : FPath}
    (h : q ∈ (clearVisit s dry fuel fs p).1.filePaths) : q ∈ fs.filePaths := by
  obtain ⟨c, hc⟩ := mem_filePaths_iff.mp h
  exact mem_filePaths_iff.mpr ⟨c, clearVisit_files_subset fuel fs p _ hc⟩

theorem clearVisit_mem_mono {s : Sync} {dry : Bool} {fuel : Nat}
    {fs : FS} {p q : FPath}
    (h : FS.Mem (clearVisit s dry fuel fs p).1 q) : FS.Mem fs q := by
  rcases h with h | h
  · exact Or.inl (clearVisit_dirs_subset fuel fs p q h)
  · exact Or.inr (clearVisit_filePaths_subset h)

/-! Depth bounds: the walk's fuel is immaterial as soon as it exceeds the
depth of the tree below the visited directory. -/

theorem le_foldr_max {l : List Nat} {x : Nat} (hx : x ∈ l) (a : Nat) :
    x ≤ l.foldr max a := by
  induction l with
  | nil => cases hx
  | cons y l IH =>
    rcases List.mem_cons.mp hx with rfl | hx'
    · exact le_max_left _ _
    · exact (IH hx').trans (le_max_right _ _)

theorem depthOK_top (fs : FS) (p : FPath) : DepthOK fs p (fs.depthBound + 1) := by
  intro d hd _
  have : d.length ≤ fs.depthBound :=
    le_foldr_max (List.mem_map.mpr ⟨d, hd, rfl⟩) 0
  omega

theorem DepthOK.mono {fs fs' : FS} {p : FPath} {fuel : Nat}
    (hsub : ∀ d, d ∈ fs'.dirs → d ∈ fs.dirs) (h : DepthOK fs p fuel) :
    DepthOK fs' p fuel :=
  fun d hd hp => h d (hsub d hd) hp

theorem DepthOK.child {fs : FS} {p : FPath} {fuel : Nat} {n : String}
    (h : DepthOK fs p (fuel + 1)) : DepthOK fs (p ++ [n]) fuel := by
  intro d hd hp
  have := h d hd ((p.prefix_append [n]).trans hp)
  simp only [List.length_append, List.length_singleton]
  omega

theorem DepthOK.zero_no_child {fs : FS} {p : FPath} {n : String}
    (h : DepthOK fs p 0) : p ++ [n] ∉ fs.dirs := by
  intro hd
  have := h (p ++ [n]) hd (p.prefix_append [n])
  simp at this

/-! Behavior of the inner file loop as a whole. -/

theorem fileFold_files_subset {s : Sync} {dry : Bool} {root : FPath}
    {files : List String} {init : FS × List Ev} {e : FPath × String}
    (h : e ∈ (files.foldl (clearFileStep s dry root) init).1.files) :
    e ∈ init.1.files :=
  foldl_inv (fun acc : FS × List Ev => e ∈ acc.1.files → e ∈ init.1.files)
    (clearFileStep s dry root) files init id
    (fun acc x _ hacc hm => hacc (clearFileStep_files_subset hm)) h

theorem fileFold_filePaths_not_mem {s : Sync} {dry : Bool} {root : FPath}
    {files : List String} {init : FS × List Ev} {q : FPath}
    (h : q ∉ init.1.filePaths) :
    q ∉ (files.foldl (clearFileStep s dry root) init).1.filePaths :=
  foldl_inv (fun acc : FS × List Ev => q ∉ acc.1.filePaths)
    (clearFileStep s dry root) files init h
    (fun acc x _ hacc hm => hacc (clearFileStep_filePaths_subset hm))

theorem fileFold_mem_mono {s : Sync} {dry : Bool} {root : FPath}
    {files : List String} {init : FS × List Ev} {q : FPath}
    (h : FS.Mem (files.foldl (clearFileStep s dry root) init).1 q) :
    FS.Mem init.1 q :=
  foldl_inv (fun acc : FS × List Ev => FS.Mem acc.1 q → FS.Mem init.1 q)
    (clearFileStep s dry root) files init id
    (fun acc x _ hacc hm => hacc (clearFileStep_mem_mono hm)) h

/-- Removals of the file loop are all of the form root ++ [x], so a
source-side path (with separate roots and root below backup) is untouched. -/
theorem fileFold_src_pres {s : Sync} {dry : Bool} {root : FPath}
    (hsep : s.SeparateRoots) (hbr : s.backup <+: root)
    {files : List String} {init : FS × List Ev} {r : FPath}
    (hr : s.source <+: r) (h : FS.Mem init.1 r) :
    FS.Mem (files.foldl (clearFileStep s dry root) init).1 r := by
  refine foldl_inv (fun acc : FS × List Ev => FS.Mem acc.1 r)
    (clearFileStep s dry root) files init h (fun acc x _ hacc => ?_)
  by_cases hc : FS.Mem acc.1 (s.source ++ root.drop s.backup.length ++ [x])
  · rw [clearFileStep_mem hc]
    exact hacc
  · rw [clearFileStep_not_mem hc]
    cases dry with
    | true => exact hacc
    | false =>
      rcases hacc with hd | hf
      · exact Or.inl hd
      · refine Or.inr (removeFile_filePaths_mem.mpr ⟨hf, fun he => ?_⟩)
        exact hsep.not_both (he ▸ hbr.trans (root.prefix_append [x])) (he ▸ hr)

/-- Every event the file loop appends is a delete-file decision for a listed
name. -/
theorem fileFold_events {s : Sync} {dry : Bool} {root : FPath}
    {files : List String} {init : FS × List Ev} :
    ∀ ev ∈ (files.foldl (clearFileStep s dry root) init).2,
      ev ∈ init.2 ∨ ∃ x, x ∈ files ∧ ev = Ev.delFile (root ++ [x]) := by
  refine foldl_inv (fun acc : FS × List Ev =>
      ∀ ev ∈ acc.2, ev ∈ init.2 ∨ ∃ x, x ∈ files ∧ ev = Ev.delFile (root ++ [x]))
    (clearFileStep s dry root) files init (fun ev hev => Or.inl hev)
    (fun acc x hx hacc ev hev => ?_)
  by_cases hc : FS.Mem acc.1 (s.source ++ root.drop s.backup.length ++ [x])
  · rw [clearFileStep_mem hc] at hev
    exact hacc ev hev
  · rw [clearFileStep_not_mem hc] at hev
    rcases List.mem_append.mp hev with hev | hev
    · exact hacc ev hev
    · simp only [List.mem_singleton] at hev
      exact Or.inr ⟨x, hx, hev⟩

/-- When a listed file's source counterpart is absent from the state the
loop reaches it with, the loop removes it (real run). -/
theorem fileFold_removes {s : Sync} {root : FPath} :
    ∀ (files : List String) (init : FS × List Ev) (x : String), x ∈ files →
      ¬ FS.Mem init.1 (s.source ++ root.drop s.backup.length ++ [x]) →
      root ++ [x] ∉ (files.foldl (clearFileStep s false root) init).1.filePaths := by
  intro files
  induction files with
  | nil => intro init x hx; cases hx
  | cons y rest IH =>
    intro init x hx hmem
    by_cases hpx : (y = x)
    · subst hpx
      rw [List.foldl_cons, clearFileStep_not_mem hmem]
      apply fileFold_filePaths_not_mem
      simp only [Bool.false_eq_true, if_false]
      rw [removeFile_filePaths_mem]
      rintro ⟨-, hne⟩
      exact hne rfl
    · rcases List.mem_cons.mp hx with rfl | hx'
      · exact absurd rfl hpx
      · rw [List.foldl_cons]
        refine IH (clearFileStep s false root init y) x hx' ?_
        intro hm
        exact hmem (clearFileStep_mem_mono hm)

/-- In a real run, every listed file surviving the loop has its source
counterpart present in the loop's final state (with separate roots and root
below backup): the file was either checked against a present counterpart,
which the loop then never removes, or it was removed. -/
theorem fileFold_clean {s : Sync} {root : FPath}
    (hsep : s.SeparateRoots) (hbr : s.backup <+: root) :
    ∀ (files : List String) (init : FS × List Ev) (x : String), x ∈ files →
      root ++ [x] ∈ (files.foldl (clearFileStep s false root) init).1.filePaths →
      FS.Mem (files.foldl (clearFileStep s false root) init).1
        (s.source ++ root.drop s.backup.length ++ [x]) := by
  intro files
  induction files with
  | nil => intro init x hx; cases hx
  | cons y rest IH =>
    intro init x hx hsurv
    rcases List.mem_cons.mp hx with rfl | hx'
    · by_cases hc : FS.Mem init.1 (s.source ++ root.drop s.backup.length ++ [x])
      · rw [List.foldl_cons, clearFileStep_mem hc]
        exact fileFold_src_pres hsep hbr
          ((s.source.prefix_append _).trans
            ((s.source ++ root.drop s.backup.length).prefix_append [x])) hc
      · exfalso
        rw [List.foldl_cons, clearFileStep_not_mem hc] at hsurv
        refine fileFold_filePaths_not_mem ?_ hsurv
        simp only [Bool.false_eq_true, if_false]
        rw [removeFile_filePaths_mem]
        rintro ⟨-, hne⟩
        exact hne rfl
    · rw [List.foldl_cons] at hsurv ⊢
      exact IH _ x hx' hsurv

theorem src_of_snoc (s : Sync) {p : FPath} (n : String)
    (h : s.backup.length ≤ p.length) :
    s.source ++ (p ++ [n]).drop s.backup.length =
      s.source ++ p.drop s.backup.length ++ [n] := by
  rw [drop_append_snoc h, ← List.append_assoc]

theorem fileFold_pc {s : Sync} {dry : Bool} {root : FPath}
    {files : List String} {init : FS × List Ev} (h : ParentClosed init.1) :
    ParentClosed (files.foldl (clearFileStep s dry root) init).1 := by
  refine foldl_inv (fun acc : FS × List Ev => ParentClosed acc.1)
    (clearFileStep s dry root) files init h (fun acc x _ hacc => ?_)
  by_cases hc : FS.Mem acc.1 (s.source ++ root.drop s.backup.length ++ [x])
  · rw [clearFileStep_mem hc]
    exact hacc
  · rw [clearFileStep_not_mem hc]
    cases dry with
    | true => exact hacc
    | false => exact hacc.removeFile_pc (root ++ [x])

/-- Retention half of the selective-deletion property: a backup-side file
whose source counterpart exists survives the walk, with its content. -/
theorem clearVisit_keep_file {s : Sync} {dry : Bool} (hsep : s.SeparateRoots) :
    ∀ (fuel : Nat) (fs : FS) (p : FPath) (e : FPath × String),
      ParentClosed fs → s.backup <+: p → e ∈ fs.files → p <+: e.1 →
      FS.Mem fs (s.source ++ e.1.drop s.backup.length) →
      e ∈ (clearVisit s dry fuel fs p).1.files := by
  have hkeepBranch : ∀ (fs : FS) (p : FPath) (e : FPath × String),
      ParentClosed fs → p <+: e.1 →
      FS.Mem fs (s.source ++ e.1.drop s.backup.length) →
      FS.Mem fs (s.source ++ p.drop s.backup.length) := by
    intro fs p e hpc hpe hsrc
    have hpref : (s.source ++ p.drop s.backup.length) <+:
        (s.source ++ e.1.drop s.backup.length) :=
      (append_prefix_append_iff s.source).mpr (prefix_drop_mono hpe _)
    by_cases heq : s.source ++ p.drop s.backup.length =
        s.source ++ e.1.drop s.backup.length
    · rw [heq]
      exact hsrc
    · exact Or.inl (hpc.prefix_mem_dirs _ hsrc _ hpref heq)
  have hfold : ∀ (fs : FS) (p : FPath) (e : FPath × String), s.backup <+: p →
      ∀ (files : List String) (init : FS × List Ev),
      e ∈ init.1.files → FS.Mem init.1 (s.source ++ e.1.drop s.backup.length) →
      e ∈ (files.foldl (clearFileStep s dry p) init).1.files ∧
      FS.Mem (files.foldl (clearFileStep s dry p) init).1
        (s.source ++ e.1.drop s.backup.length) := by
    intro fs p e hbp files init h1 h2
    refine foldl_inv (fun acc : FS × List Ev => e ∈ acc.1.files ∧
        FS.Mem acc.1 (s.source ++ e.1.drop s.backup.length))
      (clearFileStep s dry p) files init ⟨h1, h2⟩ (fun acc x _ hacc => ?_)
    by_cases hc : FS.Mem acc.1 (s.source ++ p.drop s.backup.length ++ [x])
    · rw [clearFileStep_mem hc]
      exact hacc
    · rw [clearFileStep_not_mem hc]
      cases dry with
      | true => exact hacc
      | false =>
        constructor
        · refine removeFile_files_mem.mpr ⟨hacc.1, fun hex => ?_⟩
          apply hc
          have h2' := hacc.2
          rw [hex, src_of_snoc s x hbp.length_le] at h2'
          exact h2'
        · rcases hacc.2 with hd' | hf'
          · exact Or.inl hd'
          · refine Or.inr (removeFile_filePaths_mem.mpr ⟨hf', fun heq2 => ?_⟩)
            refine hsep.not_both (q := p ++ [x])
              (hbp.trans (p.prefix_append [x])) ?_
            rw [← heq2]
            exact s.source.prefix_append _
  intro fuel
  induction fuel with
  | zero =>
    intro fs p e hpc hbp he hpe hsrc
    by_cases hd : p ∈ fs.dirs
    · rw [clearVisit_zero hd,
        clearBody_keep (Or.inl hd) (hkeepBranch fs p e hpc hpe hsrc)]
      exact (hfold fs p e hbp _ (fs, []) he hsrc).1
    · rw [clearVisit_not_dir hd]
      exact he
  | succ fuel IH =>
    intro fs p e hpc hbp he hpe hsrc
    by_cases hd : p ∈ fs.dirs
    · rw [clearVisit_succ hd,
        clearBody_keep (Or.inl hd) (hkeepBranch fs p e hpc hpe hsrc)]
      have hinit := hfold fs p e hbp (fs.childFileNames p) (fs, []) he hsrc
      refine (foldl_inv (fun acc : FS × List Ev => e ∈ acc.1.files ∧
          FS.Mem acc.1 (s.source ++ e.1.drop s.backup.length) ∧
          ParentClosed acc.1)
        (fun acc n =>
          let r' := clearVisit s dry fuel acc.1 (p ++ [n])
          (r'.1, acc.2 ++ r'.2))
        (fs.childDirNames p) _
        ⟨hinit.1, hinit.2, fileFold_pc hpc⟩
        (fun acc x _ hacc => by
          have hbx : s.backup <+: p ++ [x] := hbp.trans (p.prefix_append [x])
          refine ⟨?_, ?_, clearVisit_pc fuel acc.1 (p ++ [x]) hacc.2.2⟩
          · by_cases hx : (p ++ [x]) <+: e.1
            · exact IH acc.1 (p ++ [x]) e hacc.2.2 hbx hacc.1 hx hacc.2.1
            · by_contra hn
              exact hx (clearVisit_files_frame fuel acc.1 (p ++ [x]) e hacc.1 hn)
          · exact (clearVisit_src_mem_stable hsep hbx
              (s.source.prefix_append _)).mpr hacc.2.1)).1
    · rw [clearVisit_not_dir hd]
      exact he

/-- Removal half of the selective-deletion property: in a real run, a
backup-side file below the walked directory whose source counterpart is
absent does not survive the walk (it is deleted either individually or with
an orphaned ancestor's subtree). -/
theorem clearVisit_remove_file {s : Sync} (hsep : s.SeparateRoots) :
    ∀ (fuel : Nat) (fs : FS) (p q : FPath),
      ParentClosed fs → DepthOK fs p fuel → s.backup <+: p →
      q ∈ fs.filePaths → p <+: q → q ≠ p →
      ¬ FS.Mem fs (s.source ++ q.drop s.backup.length) →
      q ∉ (clearVisit s false fuel fs p).1.filePaths := by
  intro fuel
  induction fuel with
  | zero =>
    intro fs p q hpc hdep hbp hq hpq hqne hsrc
    by_cases hd : p ∈ fs.dirs
    · rw [clearVisit_zero hd]
      by_cases hkeep : FS.Mem fs (s.source ++ p.drop s.backup.length)
      · rw [clearBody_keep (Or.inl hd) hkeep]
        obtain ⟨n, r, rfl⟩ := prefix_cons_decompose hpq hqne
        cases r with
        | nil =>
          refine fileFold_removes _ (fs, []) n
            (mem_childFileNames.mpr hq) ?_
          rw [← src_of_snoc s n hbp.length_le]
          exact hsrc
        | cons m r' =>
          exfalso
          refine hdep.zero_no_child (n := n)
            (hpc.prefix_mem_dirs _ (Or.inr hq) (p ++ [n]) ⟨m :: r', by simp⟩ ?_)
          intro hcontra
          have := congrArg List.length hcontra
          simp at this
      · rw [clearBody_del (Or.inl hd) hkeep]
        simp only [Bool.false_eq_true, if_false]
        rw [rmtree_filePaths_mem]
        rintro ⟨-, hn⟩
        exact hn hpq
    · exact absurd (hpc.prefix_mem_dirs q (Or.inr hq) p hpq (Ne.symm hqne)) hd
  | succ fuel IH =>
    intro fs p q hpc hdep hbp hq hpq hqne hsrc
    by_cases hd : p ∈ fs.dirs
    · rw [clearVisit_succ hd]
      by_cases hkeep : FS.Mem fs (s.source ++ p.drop s.backup.length)
      · rw [clearBody_keep (Or.inl hd) hkeep]
        have aux : ∀ (names : List String) (acc : FS × List Ev),
            ParentClosed acc.1 → (∀ d, d ∈ acc.1.dirs → d ∈ fs.dirs) →
            ¬ FS.Mem acc.1 (s.source ++ q.drop s.backup.length) →
            (q ∉ acc.1.filePaths ∨
              (∃ n', n' ∈ names ∧ (p ++ [n']) <+: q ∧ q ≠ p ++ [n'])) →
            q ∉ (names.foldl
              (fun acc n =>
                let r' := clearVisit s false fuel acc.1 (p ++ [n])
                (r'.1, acc.2 ++ r'.2)) acc).1.filePaths := by
          intro names
          induction names with
          | nil =>
            intro acc _ _ _ hcase
            rcases hcase with h | ⟨n', hn', _, _⟩
            · exact h
            · cases hn'
          | cons y rest IHn =>
            intro acc hapc hasub hansrc hcase
            rw [List.foldl_cons]
            have hpc' : ParentClosed (clearVisit s false fuel acc.1 (p ++ [y])).1 :=
              clearVisit_pc fuel acc.1 (p ++ [y]) hapc
            have hsub' : ∀ d, d ∈ (clearVisit s false fuel acc.1 (p ++ [y])).1.dirs →
                d ∈ fs.dirs :=
              fun d hd' => hasub d (clearVisit_dirs_subset fuel acc.1 (p ++ [y]) d hd')
            have hsrc' : ¬ FS.Mem (clearVisit s false fuel acc.1 (p ++ [y])).1
                (s.source ++ q.drop s.backup.length) :=
              fun hm => hansrc (clearVisit_mem_mono hm)
            rcases hcase with hout | ⟨n', hn', hpre, hne⟩
            · exact IHn _ hpc' hsub' hsrc'
                (Or.inl (fun hm => hout (clearVisit_filePaths_subset hm)))
            · by_cases hyq : (p ++ [y]) <+: q ∧ q ≠ p ++ [y]
              · by_cases hqin : q ∈ acc.1.filePaths
                · have hgone := IH acc.1 (p ++ [y]) q hapc
                    ((hdep.mono hasub).child) (hbp.trans (p.prefix_append [y]))
                    hqin hyq.1 hyq.2 hansrc
                  exact IHn _ hpc' hsub' hsrc' (Or.inl hgone)
                · exact IHn _ hpc' hsub' hsrc'
                    (Or.inl (fun hm => hqin (clearVisit_filePaths_subset hm)))
              · have hn'' : n' ∈ rest := by
                  rcases List.mem_cons.mp hn' with rfl | h'
                  · exact absurd ⟨hpre, hne⟩ hyq
                  · exact h'
                exact IHn _ hpc' hsub' hsrc' (Or.inr ⟨n', hn'', hpre, hne⟩)
        obtain ⟨n, r, rfl⟩ := prefix_cons_decompose hpq hqne
        have hffdirs := fileFold_dirs s false p (fs.childFileNames p) (fs, [])
        have hffsrc : ¬ FS.Mem
            ((fs.childFileNames p).foldl (clearFileStep s false p) (fs, [])).1
            (s.source ++ (p ++ n :: r).drop s.backup.length) :=
          fun hm => hsrc (fileFold_mem_mono hm)
        cases r with
        | nil =>
          refine aux (fs.childDirNames p) _ (fileFold_pc hpc)
            (fun d hd' => by rwa [hffdirs] at hd') hffsrc (Or.inl ?_)
          refine fileFold_removes _ (fs, []) n (mem_childFileNames.mpr hq) ?_
          rw [← src_of_snoc s n hbp.length_le]
          exact hsrc
        | cons m r' =>
          have hqnec : p ++ n :: m :: r' ≠ p ++ [n] := by
            intro hcontra
            have := congrArg List.length hcontra
            simp at this
          have hcdir : p ++ [n] ∈ fs.dirs :=
            hpc.prefix_mem_dirs _ (Or.inr hq) (p ++ [n]) ⟨m :: r', by simp⟩
              (Ne.symm hqnec)
          exact aux (fs.childDirNames p) _ (fileFold_pc hpc)
            (fun d hd' => by rwa [hffdirs] at hd') hffsrc
            (Or.inr ⟨n, mem_childDirNames.mpr hcdir, ⟨m :: r', by simp⟩, hqnec⟩)
      · rw [clearBody_del (Or.inl hd) hkeep]
        refine foldl_inv (fun acc : FS × List Ev => q ∉ acc.1.filePaths)
          (fun acc n =>
            let r' := clearVisit s false fuel acc.1 (p ++ [n])
            (r'.1, acc.2 ++ r'.2))
          (fs.childDirNames p) _ ?_
          (fun acc x _ hacc hm => hacc (clearVisit_filePaths_subset hm))
        show q ∉ (if false = true then fs else fs.rmtree p).filePaths
        simp only [Bool.false_eq_true, if_false]
        rw [rmtree_filePaths_mem]
        rintro ⟨-, hn⟩
        exact hn hpq
    · exact absurd (hpc.prefix_mem_dirs q (Or.inr hq) p hpq (Ne.symm hqne)) hd

theorem fileFold_kd {s : Sync} {dry : Bool} {root : FPath}
    {files : List String} {init : FS × List Ev} (h : KindsDisjoint init.1) :
    KindsDisjoint (files.foldl (clearFileStep s dry root) init).1 := by
  refine foldl_inv (fun acc : FS × List Ev => KindsDisjoint acc.1)
    (clearFileStep s dry root) files init h (fun acc x _ hacc => ?_)
  by_cases hc : FS.Mem acc.1 (s.source ++ root.drop s.backup.length ++ [x])
  · rw [clearFileStep_mem hc]
    exact hacc
  · rw [clearFileStep_not_mem hc]
    cases dry with
    | true => exact hacc
    | false => exact hacc.removeFile_kd (root ++ [x])

theorem filePaths_subset_of_files {a b : FS}
    (h : ∀ e, e ∈ a.files → e ∈ b.files) :
    ∀ q, q ∈ a.filePaths → q ∈ b.filePaths := by
  intro q hq
  obtain ⟨c, hc⟩ := mem_filePaths_iff.mp hq
  exact mem_filePaths_iff.mpr ⟨c, h _ hc⟩

/-! Lemmas about the fold over the listed subdirectories. -/

theorem childFold_removed {s : Sync} {dry : Bool} {fuel : Nat} {p : FPath} :
    ∀ (names : List String) (acc : FS × List Ev),
      (∀ x ∈ names, p ++ [x] ∉ acc.1.dirs) →
      names.foldl (fun acc n =>
        let r' := clearVisit s dry fuel acc.1 (p ++ [n])
        (r'.1, acc.2 ++ r'.2)) acc = acc := by
  intro names
  induction names with
  | nil => intro acc _; rfl
  | cons y rest IH =>
    intro acc h
    rw [List.foldl_cons]
    have h1 : clearVisit s dry fuel acc.1 (p ++ [y]) = (acc.1, []) :=
      clearVisit_not_dir (h y (by simp))
    show rest.foldl _ ((clearVisit s dry fuel acc.1 (p ++ [y])).1,
        acc.2 ++ (clearVisit s dry fuel acc.1 (p ++ [y])).2) = acc
    rw [h1, List.append_nil]
    exact IH acc (fun x hx => h x (by simp [hx]))

theorem childFold_mem_mono {s : Sync} {dry : Bool} {fuel : Nat} {p : FPath}
    {names : List String} {acc : FS × List Ev} {t : FPath}
    (h : FS.Mem (names.foldl (fun acc n =>
        let r' := clearVisit s dry fuel acc.1 (p ++ [n])
        (r'.1, acc.2 ++ r'.2)) acc).1 t) :
    FS.Mem acc.1 t :=
  foldl_inv (fun a : FS × List Ev => FS.Mem a.1 t → FS.Mem acc.1 t)
    (fun acc n =>
      let r' := clearVisit s dry fuel acc.1 (p ++ [n])
      (r'.1, acc.2 ++ r'.2))
    names acc id (fun a x _ ha hm => ha (clearVisit_mem_mono hm)) h

theorem childFold_filePaths_subset {s : Sync} {dry : Bool} {fuel : Nat}
    {p : FPath} {names : List String} {acc : FS × List Ev} {t : FPath}
    (h : t ∈ (names.foldl (fun acc n =>
        let r' := clearVisit s dry fuel acc.1 (p ++ [n])
        (r'.1, acc.2 ++ r'.2)) acc).1.filePaths) :
    t ∈ acc.1.filePaths :=
  foldl_inv (fun a : FS × List Ev => t ∈ a.1.filePaths → t ∈ acc.1.filePaths)
    (fun acc n =>
      let r' := clearVisit s dry fuel acc.1 (p ++ [n])
      (r'.1, acc.2 ++ r'.2))
    names acc id (fun a x _ ha hm => ha (clearVisit_filePaths_subset hm)) h

theorem childFold_dirs_subset {s : Sync} {dry : Bool} {fuel : Nat}
    {p : FPath} {names : List String} {acc : FS × List Ev} {t : FPath}
    (h : t ∈ (names.foldl (fun acc n =>
        let r' := clearVisit s dry fuel acc.1 (p ++ [n])
        (r'.1, acc.2 ++ r'.2)) acc).1.dirs) :
    t ∈ acc.1.dirs :=
  foldl_inv (fun a : FS × List Ev => t ∈ a.1.dirs → t ∈ acc.1.dirs)
    (fun acc n =>
      let r' := clearVisit s dry fuel acc.1 (p ++ [n])
      (r'.1, acc.2 ++ r'.2))
    names acc id
    (fun a x _ ha hm => ha (clearVisit_dirs_subset fuel a.1 (p ++ [x]) t hm)) h

theorem childFold_src_pres {s : Sync} {dry : Bool} {fuel : Nat} {p : FPath}
    (hsep : s.SeparateRoots) (hbp : s.backup <+: p)
    {names : List String} {acc : FS × List Ev} {t : FPath}
    (ht : s.source <+: t) (h : FS.Mem acc.1 t) :
    FS.Mem (names.foldl (fun acc n =>
        let r' := clearVisit s dry fuel acc.1 (p ++ [n])
        (r'.1, acc.2 ++ r'.2)) acc).1 t :=
  foldl_inv (fun a : FS × List Ev => FS.Mem a.1 t)
    (fun acc n =>
      let r' := clearVisit s dry fuel acc.1 (p ++ [n])
      (r'.1, acc.2 ++ r'.2))
    names acc h
    (fun a x _ ha =>
      (clearVisit_src_mem_stable hsep (hbp.trans (p.prefix_append [x])) ht).mpr ha)

/-- After a real run of the walk at a position below the backup root, every
surviving path strictly below the walked directory has its source
counterpart present in the resulting state; and if the walked directory
itself survives as a directory, so is its own counterpart. -/
theorem clearVisit_clean {s : Sync} (hsep : s.SeparateRoots) :
    ∀ (fuel : Nat) (fs : FS) (p : FPath),
      ParentClosed fs → KindsDisjoint fs → DepthOK fs p fuel →
      s.backup <+: p →
      (∀ q, FS.Mem (clearVisit s false fuel fs p).1 q → p <+: q → q ≠ p →
        FS.Mem (clearVisit s false fuel fs p).1
          (s.source ++ q.drop s.backup.length)) ∧
      (p ∈ (clearVisit s false fuel fs p).1.dirs →
        FS.Mem (clearVisit s false fuel fs p).1
          (s.source ++ p.drop s.backup.length)) := by
  intro fuel
  induction fuel with
  | zero =>
    intro fs p hpc hkd hdep hbp
    by_cases hd : p ∈ fs.dirs
    · rw [clearVisit_zero hd]
      by_cases hkeep : FS.Mem fs (s.source ++ p.drop s.backup.length)
      · rw [clearBody_keep (Or.inl hd) hkeep]
        constructor
        · intro q hqm hpq hqne
          obtain ⟨n, r, rfl⟩ := prefix_cons_decompose hpq hqne
          cases r with
          | cons m r' =>
            exfalso
            have hqfs : FS.Mem fs (p ++ n :: m :: r') := fileFold_mem_mono hqm
            have hne2 : p ++ [n] ≠ p ++ n :: m :: r' := by
              intro hcontra
              have := congrArg List.length hcontra
              simp at this
            exact hdep.zero_no_child
              (hpc.prefix_mem_dirs _ hqfs (p ++ [n]) ⟨m :: r', by simp⟩ hne2)
          | nil =>
            rcases hqm with hdir | hfile
            · exfalso
              rw [fileFold_dirs] at hdir
              exact hdep.zero_no_child hdir
            · have hlist : p ++ [n] ∈ fs.filePaths :=
                filePaths_subset_of_files (fun e he => fileFold_files_subset he)
                  _ hfile
              have hclean := fileFold_clean hsep hbp (fs.childFileNames p)
                (fs, []) n (mem_childFileNames.mpr hlist) hfile
              rwa [← src_of_snoc s n hbp.length_le] at hclean
        · intro _
          exact fileFold_src_pres hsep hbp (s.source.prefix_append _) hkeep
      · rw [clearBody_del (Or.inl hd) hkeep]
        constructor
        · intro q hqm hpq _
          exfalso
          rcases hqm with hdir | hfile
          · simp only [Bool.false_eq_true, if_false] at hdir
            exact (rmtree_dirs_mem.mp hdir).2 hpq
          · simp only [Bool.false_eq_true, if_false] at hfile
            exact (rmtree_filePaths_mem.mp hfile).2 hpq
        · intro hdir
          exfalso
          simp only [Bool.false_eq_true, if_false] at hdir
          exact (rmtree_dirs_mem.mp hdir).2 List.prefix_rfl
    · rw [clearVisit_not_dir hd]
      exact ⟨fun q hqm hpq hqne =>
          absurd (hpc.prefix_mem_dirs q hqm p hpq (Ne.symm hqne)) hd,
        fun h => absurd h hd⟩
  | succ fuel IH =>
    intro fs p hpc hkd hdep hbp
    by_cases hd : p ∈ fs.dirs
    case neg =>
      rw [clearVisit_not_dir hd]
      exact ⟨fun q hqm hpq hqne =>
          absurd (hpc.prefix_mem_dirs q hqm p hpq (Ne.symm hqne)) hd,
        fun h => absurd h hd⟩
    case pos =>
      rw [clearVisit_succ hd]
      by_cases hkeep : FS.Mem fs (s.source ++ p.drop s.backup.length)
      case neg =>
        rw [clearBody_del (Or.inl hd) hkeep]
        rw [childFold_removed _ _ (by
          intro x _
          show p ++ [x] ∉ (if false = true then fs else fs.rmtree p).dirs
          simp only [Bool.false_eq_true, if_false]
          rw [rmtree_dirs_mem]
          rintro ⟨-, hn⟩
          exact hn (p.prefix_append [x]))]
        constructor
        · intro q hqm hpq _
          exfalso
          rcases hqm with hdir | hfile
          · simp only [Bool.false_eq_true, if_false] at hdir
            exact (rmtree_dirs_mem.mp hdir).2 hpq
          · simp only [Bool.false_eq_true, if_false] at hfile
            exact (rmtree_filePaths_mem.mp hfile).2 hpq
        · intro hdir
          exfalso
          simp only [Bool.false_eq_true, if_false] at hdir
          exact (rmtree_dirs_mem.mp hdir).2 List.prefix_rfl
      case pos =>
        rw [clearBody_keep (Or.inl hd) hkeep]
        have aux : ∀ (names : List String) (acc : FS × List Ev),
            ParentClosed acc.1 → KindsDisjoint acc.1 →
            (∀ d, d ∈ acc.1.dirs → d ∈ fs.dirs) →
            (∀ e, e ∈ acc.1.files → e ∈ fs.files) →
            (∀ x ∈ names, p ++ [x] ∈ fs.dirs) →
            ∀ q n', (p ++ [n']) <+: q → n' ∈ names →
              FS.Mem (names.foldl
                (fun acc n =>
                  let r' := clearVisit s false fuel acc.1 (p ++ [n])
                  (r'.1, acc.2 ++ r'.2)) acc).1 q →
              FS.Mem (names.foldl
                (fun acc n =>
                  let r' := clearVisit s false fuel acc.1 (p ++ [n])
                  (r'.1, acc.2 ++ r'.2)) acc).1
                (s.source ++ q.drop s.backup.length) := by
          intro names
          induction names with
          | nil =>
            intro acc _ _ _ _ _ q n' _ hn'
            cases hn'
          | cons y rest IHn =>
            intro acc hapc hakd hasub hafiles hnames q n' hpre hn' hqm
            rw [List.foldl_cons] at hqm ⊢
            by_cases hyq : (p ++ [y]) <+: q
            · have hIHy := IH acc.1 (p ++ [y]) hapc hakd
                ((hdep.mono hasub).child) (hbp.trans (p.prefix_append [y]))
              have hqay : FS.Mem (clearVisit s false fuel acc.1 (p ++ [y])).1 q :=
                @childFold_mem_mono s false fuel p rest
                  ((clearVisit s false fuel acc.1 (p ++ [y])).1,
                    acc.2 ++ (clearVisit s false fuel acc.1 (p ++ [y])).2) q hqm
              by_cases hqey : q = p ++ [y]
              · rcases hqay with hdir | hfile
                · have hsq := hIHy.2 (by rwa [hqey] at hdir)
                  rw [hqey]
                  exact childFold_src_pres hsep hbp (s.source.prefix_append _) hsq
                · exfalso
                  have hq_fs : q ∈ fs.filePaths :=
                    filePaths_subset_of_files hafiles q
                      (filePaths_subset_of_files
                        (fun e he =>
                          clearVisit_files_subset fuel acc.1 (p ++ [y]) e he)
                        q hfile)
                  have hydir : q ∈ fs.dirs := by
                    rw [hqey]
                    exact hnames y (by simp)
                  exact hkd q hydir hq_fs
              · have hsq := hIHy.1 q hqay hyq hqey
                exact childFold_src_pres hsep hbp (s.source.prefix_append _) hsq
            · have hn'' : n' ∈ rest := by
                rcases List.mem_cons.mp hn' with rfl | h'
                · exact absurd hpre hyq
                · exact h'
              refine IHn ((clearVisit s false fuel acc.1 (p ++ [y])).1,
                  acc.2 ++ (clearVisit s false fuel acc.1 (p ++ [y])).2)
                (clearVisit_pc fuel acc.1 (p ++ [y]) hapc)
                (clearVisit_kd fuel acc.1 (p ++ [y]) hakd)
                (fun d hd' =>
                  hasub d (clearVisit_dirs_subset fuel acc.1 (p ++ [y]) d hd'))
                (fun e he =>
                  hafiles e (clearVisit_files_subset fuel acc.1 (p ++ [y]) e he))
                (fun x hx => hnames x (by simp [hx]))
                q n' hpre hn'' hqm
        constructor
        · intro q hqm hpq hqne
          obtain ⟨n, r, rfl⟩ := prefix_cons_decompose hpq hqne
          by_cases hc : p ++ [n] ∈ fs.dirs
          · exact aux (fs.childDirNames p) _ (fileFold_pc hpc) (fileFold_kd hkd)
              (fun d hd' => by rw [fileFold_dirs] at hd'; exact hd')
              (fun e he => fileFold_files_subset he)
              (fun x hx => mem_childDirNames.mp hx)
              _ n ⟨r, by simp⟩ (mem_childDirNames.mpr hc) hqm
          · have hqfs : FS.Mem fs (p ++ n :: r) :=
              fileFold_mem_mono (childFold_mem_mono hqm)
            cases r with
            | cons m r' =>
              exfalso
              have hne2 : p ++ [n] ≠ p ++ n :: m :: r' := by
                intro hcontra
                have := congrArg List.length hcontra
                simp at this
              exact hc (hpc.prefix_mem_dirs _ hqfs (p ++ [n]) ⟨m :: r', by simp⟩ hne2)
            | nil =>
              have hqfile : p ++ [n] ∈ (((fs.childDirNames p).foldl
                  (fun acc n' =>
                    let r' := clearVisit s false fuel acc.1 (p ++ [n'])
                    (r'.1, acc.2 ++ r'.2))
                  ((fs.childFileNames p).foldl (clearFileStep s false p)
                    (fs, [])))).1.filePaths := by
                rcases hqm with hdir | hfile
                · exfalso
                  have := childFold_dirs_subset hdir
                  rw [fileFold_dirs] at this
                  exact hc this
                · exact hfile
              have hq1 : p ++ [n] ∈ ((fs.childFileNames p).foldl
                  (clearFileStep s false p) (fs, [])).1.filePaths :=
                childFold_filePaths_subset hqfile
              have hqlist : p ++ [n] ∈ fs.filePaths :=
                filePaths_subset_of_files (fun e he => fileFold_files_subset he)
                  _ hq1
              have hclean := fileFold_clean hsep hbp (fs.childFileNames p)
                (fs, []) n (mem_childFileNames.mpr hqlist) hq1
              rw [← src_of_snoc s n hbp.length_le] at hclean
              exact childFold_src_pres hsep hbp (s.source.prefix_append _) hclean
        · intro _
          exact childFold_src_pres hsep hbp (s.source.prefix_append _)
            (fileFold_src_pres hsep hbp (s.source.prefix_append _) hkeep)

/-- On a state in which everything at or below the walked directory is
source-backed, the walk deletes nothing and decides nothing. -/
theorem clearVisit_clean_noop {s : Sync} {dry : Bool} :
    ∀ (fuel : Nat) (fs : FS) (p : FPath), s.backup <+: p →
      (∀ q, FS.Mem fs q → p <+: q → q ≠ p →
        FS.Mem fs (s.source ++ q.drop s.backup.length)) →
      (p ∈ fs.dirs → FS.Mem fs (s.source ++ p.drop s.backup.length)) →
      clearVisit s dry fuel fs p = (fs, []) := by
  have hbodyfold : ∀ (fs : FS) (p : FPath), s.backup <+: p →
      (∀ q, FS.Mem fs q → p <+: q → q ≠ p →
        FS.Mem fs (s.source ++ q.drop s.backup.length)) →
      (fs.childFileNames p).foldl (clearFileStep s dry p) (fs, []) = (fs, []) := by
    intro fs p hbp H
    refine foldl_inv (fun acc : FS × List Ev => acc = (fs, []))
      (clearFileStep s dry p) (fs.childFileNames p) (fs, []) rfl
      (fun acc x hx hacc => ?_)
    have hxm : p ++ [x] ∈ fs.filePaths := mem_childFileNames.mp hx
    have hsrcx : FS.Mem fs (s.source ++ p.drop s.backup.length ++ [x]) := by
      have := H (p ++ [x]) (Or.inr hxm) (p.prefix_append [x]) (snoc_ne_self p x)
      rwa [src_of_snoc s x hbp.length_le] at this
    rw [hacc]
    exact clearFileStep_mem hsrcx
  intro fuel
  induction fuel with
  | zero =>
    intro fs p hbp H H2
    by_cases hd : p ∈ fs.dirs
    · rw [clearVisit_zero hd, clearBody_keep (Or.inl hd) (H2 hd)]
      exact hbodyfold fs p hbp H
    · exact clearVisit_not_dir hd
  | succ fuel IH =>
    intro fs p hbp H H2
    by_cases hd : p ∈ fs.dirs
    · rw [clearVisit_succ hd, clearBody_keep (Or.inl hd) (H2 hd),
        hbodyfold fs p hbp H]
      refine foldl_inv (fun acc : FS × List Ev => acc = (fs, []))
        (fun acc n =>
          let r' := clearVisit s dry fuel acc.1 (p ++ [n])
          (r'.1, acc.2 ++ r'.2))
        (fs.childDirNames p) (fs, []) rfl (fun acc x hx hacc => ?_)
      have hc : p ++ [x] ∈ fs.dirs := mem_childDirNames.mp hx
      have Hc : ∀ q, FS.Mem fs q → (p ++ [x]) <+: q → q ≠ p ++ [x] →
          FS.Mem fs (s.source ++ q.drop s.backup.length) := by
        intro q hq hcq hqne
        refine H q hq ((p.prefix_append [x]).trans hcq) ?_
        intro hqp
        have h1 := hcq.length_le
        rw [hqp] at h1
        simp at h1
      have hvisit : clearVisit s dry fuel acc.1 (p ++ [x]) = (fs, []) := by
        rw [hacc]
        exact IH fs (p ++ [x]) (hbp.trans (p.prefix_append [x])) Hc
          (fun hcd =>
            H (p ++ [x]) (Or.inl hcd) (p.prefix_append [x]) (snoc_ne_self p x))
      show ((clearVisit s dry fuel acc.1 (p ++ [x])).1,
        acc.2 ++ (clearVisit s dry fuel acc.1 (p ++ [x])).2) = (fs, [])
      rw [hvisit, hacc]
      simp
    · exact clearVisit_not_dir hd

/-! Machinery for the subtree-isolation property: once a directory is
removed, nothing at or below it exists, and this disjunction is preserved
by the whole walk. -/

theorem rmtree_mem {fs : FS} {p q : FPath} :
    FS.Mem (fs.rmtree p) q ↔ FS.Mem fs q ∧ ¬ p <+: q := by
  unfold FS.Mem
  rw [rmtree_dirs_mem, rmtree_filePaths_mem]
  tauto

theorem clearBody_mem_mono {s : Sync} {dry : Bool} {fs : FS} {root : FPath}
    {files : List String} {q : FPath}
    (h : FS.Mem (clearBody s dry fs root files).1 q) : FS.Mem fs q := by
  rcases h with h | h
  · exact Or.inl (clearBody_dirs_subset h)
  · exact Or.inr (filePaths_subset_of_files
      (fun e he => clearBody_files_subset he) q h)

theorem SubtreeGone.of_subset {fs fs' : FS} {D : FPath}
    (hdirs : D ∈ fs'.dirs → D ∈ fs.dirs → D ∈ fs'.dirs)
    (hmono : ∀ q, FS.Mem fs' q → FS.Mem fs q)
    (h : SubtreeGone fs D) (hD : D ∈ fs.dirs → D ∈ fs'.dirs ∨
      ∀ q, D <+: q → ¬ FS.Mem fs' q) :
    SubtreeGone fs' D := by
  rcases h with h | h
  · exact hD h
  · exact Or.inr (fun q hq hm => h q hq (hmono q hm))

theorem clearBody_dstate {s : Sync} {dry : Bool} {fs : FS} {root : FPath}
    {files : List String} {D : FPath} (h : SubtreeGone fs D) :
    SubtreeGone (clearBody s dry fs root files).1 D := by
  by_cases h1 : FS.Mem fs root
  · by_cases h2 : FS.Mem fs (s.source ++ root.drop s.backup.length)
    · rw [clearBody_keep h1 h2]
      rcases h with hdir | hall
      · left
        rw [fileFold_dirs]
        exact hdir
      · exact Or.inr (fun q hq hm => hall q hq (fileFold_mem_mono hm))
    · rw [clearBody_del h1 h2]
      cases dry with
      | true => exact h
      | false =>
        rcases h with hdir | hall
        · by_cases hrD : root <+: D
          · refine Or.inr (fun q hq hm => ?_)
            show False
            have := rmtree_mem.mp (by simpa using hm)
            exact this.2 (hrD.trans hq)
          · left
            show D ∈ (if false = true then fs else fs.rmtree root).dirs
            simp only [Bool.false_eq_true, if_false]
            exact rmtree_dirs_mem.mpr ⟨hdir, hrD⟩
        · refine Or.inr (fun q hq hm => ?_)
          have hm' : FS.Mem (fs.rmtree root) q := by simpa using hm
          exact hall q hq (rmtree_mem.mp hm').1
  · rw [clearBody_vanished h1]
    exact h

theorem clearVisit_dstate {s : Sync} {dry : Bool} :
    ∀ (fuel : Nat) (fs : FS) (p D : FPath), SubtreeGone fs D →
      SubtreeGone (clearVisit s dry fuel fs p).1 D := by
  intro fuel
  induction fuel with
  | zero =>
    intro fs p D h
    by_cases hd : p ∈ fs.dirs
    · rw [clearVisit_zero hd]
      exact clearBody_dstate h
    · rwa [clearVisit_not_dir hd]
  | succ fuel IH =>
    intro fs p D h
    by_cases hd : p ∈ fs.dirs
    · rw [clearVisit_succ hd]
      exact foldl_inv (fun acc : FS × List Ev => SubtreeGone acc.1 D)
        (fun acc n =>
          let r' := clearVisit s dry fuel acc.1 (p ++ [n])
          (r'.1, acc.2 ++ r'.2))
        (fs.childDirNames p) _ (clearBody_dstate h)
        (fun acc x _ hacc => IH acc.1 (p ++ [x]) D hacc)
    · rwa [clearVisit_not_dir hd]

/-- Dry runs never emit a delete-file decision for any path at or below a
directory whose own source counterpart is absent: such a directory (and by
parent-closure every directory below it) takes the delete-subtree branch,
which skips the file loop entirely. -/
theorem clearVisit_dry_no_delFile {s : Sync} :
    ∀ (fuel : Nat) (fs : FS) (p D : FPath),
      ParentClosed fs → KindsDisjoint fs → D ∈ fs.dirs →
      ¬ FS.Mem fs (s.source ++ D.drop s.backup.length) →
      ∀ q, D <+: q → Ev.delFile q ∉ (clearVisit s true fuel fs p).2 := by
  have hbody : ∀ (fs : FS) (p D : FPath),
      ParentClosed fs → KindsDisjoint fs → D ∈ fs.dirs →
      ¬ FS.Mem fs (s.source ++ D.drop s.backup.length) →
      ∀ q, D <+: q →
        Ev.delFile q ∉ (clearBody s true fs p (fs.childFileNames p)).2 := by
    intro fs p D hpc hkd hD hsrcD q hDq hin
    by_cases h1 : FS.Mem fs p
    · by_cases h2 : FS.Mem fs (s.source ++ p.drop s.backup.length)
      · rw [clearBody_keep h1 h2] at hin
        rcases fileFold_events _ hin with hin' | ⟨x, hx, hev⟩
        · cases hin'
        · have hq : q = p ++ [x] := by
            injection hev
          have hqf : q ∈ fs.filePaths := by
            rw [hq]
            exact mem_childFileNames.mp hx
          rcases prefix_snoc_cases (hq ▸ hDq) with hDp | hDeq
          · have hpref : (s.source ++ D.drop s.backup.length) <+:
                (s.source ++ p.drop s.backup.length) :=
              (append_prefix_append_iff s.source).mpr (prefix_drop_mono hDp _)
            by_cases heq : s.source ++ D.drop s.backup.length =
                s.source ++ p.drop s.backup.length
            · exact hsrcD (heq ▸ h2)
            · exact hsrcD (Or.inl (hpc.prefix_mem_dirs _ h2 _ hpref heq))
          · rw [← hq] at hDeq
            rw [← hDeq] at hqf
            exact hkd D hD hqf
      · rw [clearBody_del h1 h2] at hin
        simp at hin
    · rw [clearBody_vanished h1] at hin
      cases hin
  intro fuel
  induction fuel with
  | zero =>
    intro fs p D hpc hkd hD hsrcD q hDq hin
    by_cases hd : p ∈ fs.dirs
    · rw [clearVisit_zero hd] at hin
      exact hbody fs p D hpc hkd hD hsrcD q hDq hin
    · rw [clearVisit_not_dir hd] at hin
      cases hin
  | succ fuel IH =>
    intro fs p D hpc hkd hD hsrcD q hDq hin
    by_cases hd : p ∈ fs.dirs
    · rw [clearVisit_succ hd] at hin
      have key := foldl_inv (fun acc : FS × List Ev =>
          acc.1 = fs ∧ Ev.delFile q ∉ acc.2)
        (fun acc n =>
          let r' := clearVisit s true fuel acc.1 (p ++ [n])
          (r'.1, acc.2 ++ r'.2))
        (fs.childDirNames p) _
        ⟨clearBody_dry_fs s fs p (fs.childFileNames p),
         hbody fs p D hpc hkd hD hsrcD q hDq⟩
        (fun acc x _ hacc => by
          constructor
          · show (clearVisit s true fuel acc.1 (p ++ [x])).1 = fs
            rw [clearVisit_dry_fs, hacc.1]
          · show Ev.delFile q ∉ acc.2 ++ (clearVisit s true fuel acc.1 (p ++ [x])).2
            intro hmem
            rcases List.mem_append.mp hmem with hmem | hmem
            · exact hacc.2 hmem
            · rw [hacc.1] at hmem
              exact IH fs (p ++ [x]) D hpc hkd hD hsrcD q hDq hmem)
      exact key.2 hin
    · rw [clearVisit_not_dir hd] at hin
      cases hin

/-- In a real run, once a directory D (source counterpart absent) is slated
for whole-subtree deletion, no decision of any kind is ever emitted for a
path strictly inside D: the walk removes the subtree at D and the removed
children fail their scandir and are skipped. -/
theorem clearVisit_isolated {s : Sync} :
    ∀ (fuel : Nat) (fs : FS) (p D : FPath),
      ¬ FS.Mem fs (s.source ++ D.drop s.backup.length) →
      (D <+: p → p = D ∨ p ∉ fs.dirs) →
      ∀ q, D <+: q → q ≠ D →
        Ev.delTree q ∉ (clearVisit s false fuel fs p).2 ∧
        Ev.delFile q ∉ (clearVisit s false fuel fs p).2 := by
  have hbody : ∀ (fs : FS) (p D : FPath), p ∈ fs.dirs →
      ¬ FS.Mem fs (s.source ++ D.drop s.backup.length) →
      (D <+: p → p = D ∨ p ∉ fs.dirs) →
      ∀ q, D <+: q → q ≠ D →
        Ev.delTree q ∉ (clearBody s false fs p (fs.childFileNames p)).2 ∧
        Ev.delFile q ∉ (clearBody s false fs p (fs.childFileNames p)).2 := by
    intro fs p D hd hsrcD hinv q hDq hqne
    by_cases hkeep : FS.Mem fs (s.source ++ p.drop s.backup.length)
    · have hnDp : ¬ D <+: p := by
        intro hDp
        rcases hinv hDp with rfl | hnd
        · exact hsrcD hkeep
        · exact hnd hd
      rw [clearBody_keep (Or.inl hd) hkeep]
      constructor
      · intro hin
        rcases fileFold_events _ hin with hin' | ⟨x, _, hev⟩
        · cases hin'
        · cases hev
      · intro hin
        rcases fileFold_events _ hin with hin' | ⟨x, _, hev⟩
        · cases hin'
        · have hq : q = p ++ [x] := by injection hev
          rcases prefix_snoc_cases (hq ▸ hDq) with hDp | hDeq
          · exact hnDp hDp
          · exact hqne (hq ▸ hDeq.symm ▸ rfl)
    · rw [clearBody_del (Or.inl hd) hkeep]
      constructor
      · intro hin
        simp only [List.mem_singleton] at hin
        have hq : q = p := by injection hin
        rcases hinv (hq ▸ hDq) with rfl | hnd
        · exact hqne hq
        · exact hnd hd
      · intro hin
        simp at hin
  intro fuel
  induction fuel with
  | zero =>
    intro fs p D hsrcD hinv q hDq hqne
    by_cases hd : p ∈ fs.dirs
    · rw [clearVisit_zero hd]
      exact hbody fs p D hd hsrcD hinv q hDq hqne
    · rw [clearVisit_not_dir hd]
      simp
  | succ fuel IH =>
    intro fs p D hsrcD hinv q hDq hqne
    by_cases hd : p ∈ fs.dirs
    · rw [clearVisit_succ hd]
      by_cases hkeep : FS.Mem fs (s.source ++ p.drop s.backup.length)
      · have hnDp : ¬ D <+: p := by
          intro hDp
          rcases hinv hDp with rfl | hnd
          · exact hsrcD hkeep
          · exact hnd hd
        rw [clearBody_keep (Or.inl hd) hkeep]
        have key := foldl_inv (fun acc : FS × List Ev =>
            (Ev.delTree q ∉ acc.2 ∧ Ev.delFile q ∉ acc.2) ∧
            ¬ FS.Mem acc.1 (s.source ++ D.drop s.backup.length))
          (fun acc n =>
            let r' := clearVisit s false fuel acc.1 (p ++ [n])
            (r'.1, acc.2 ++ r'.2))
          (fs.childDirNames p) _
          ⟨by
            rw [← clearBody_keep (Or.inl hd) hkeep]
            exact hbody fs p D hd hsrcD hinv q hDq hqne,
           fun hm => hsrcD (fileFold_mem_mono hm)⟩
          (fun acc x _ hacc => by
            have hinvc : D <+: p ++ [x] → p ++ [x] = D ∨ p ++ [x] ∉ acc.1.dirs := by
              intro hDc
              rcases prefix_snoc_cases hDc with hDp | hDeq
              · exact absurd hDp hnDp
              · exact Or.inl hDeq.symm
            have hch := IH acc.1 (p ++ [x]) D hacc.2 hinvc q hDq hqne
            refine ⟨⟨?_, ?_⟩, ?_⟩
            · show Ev.delTree q ∉ acc.2 ++ (clearVisit s false fuel acc.1 (p ++ [x])).2
              intro hmem
              rcases List.mem_append.mp hmem with hmem | hmem
              · exact hacc.1.1 hmem
              · exact hch.1 hmem
            · show Ev.delFile q ∉ acc.2 ++ (clearVisit s false fuel acc.1 (p ++ [x])).2
              intro hmem
              rcases List.mem_append.mp hmem with hmem | hmem
              · exact hacc.1.2 hmem
              · exact hch.2 hmem
            · show ¬ FS.Mem (clearVisit s false fuel acc.1 (p ++ [x])).1
                (s.source ++ D.drop s.backup.length)
              exact fun hm => hacc.2 (clearVisit_mem_mono hm))
        exact key.1
      · rw [clearBody_del (Or.inl hd) hkeep]
        rw [childFold_removed _ _ (by
          intro x _
          show p ++ [x] ∉ (if false = true then fs else fs.rmtree p).dirs
          simp only [Bool.false_eq_true, if_false]
          rw [rmtree_dirs_mem]
          rintro ⟨-, hn⟩
          exact hn (p.prefix_append [x]))]
        rw [← clearBody_del (Or.inl hd) hkeep]
        exact hbody fs p D hd hsrcD hinv q hDq hqne
    · rw [clearVisit_not_dir hd]
      simp

/-! The copy guarantee of sync_level: the walk never touches the source side
of the state, and deposits each eligible source file at its backup-equivalent
path with the source bytes, regardless of what happens to the other files. -/

theorem srcIntact_refl (source : FPath) (fs0 : FS) : SrcIntact source fs0 fs0 :=
  ⟨rfl, fun _ _ => Iff.rfl, fun _ _ => rfl⟩

theorem SrcIntact.filePaths_iff {source : FPath} {fs0 fs : FS}
    (h : SrcIntact source fs0 fs) {q : FPath} (hq : source <+: q) :
    q ∈ fs.filePaths ↔ q ∈ fs0.filePaths := by
  rw [mem_filePaths_iff, mem_filePaths_iff]
  exact exists_congr fun c => h.2.1 (q, c) hq

theorem getLastD_snoc (l : FPath) (a d : String) : (l ++ [a]).getLastD d = a := by
  simp [List.getLastD_concat]

theorem find?_filter_of_imp {α : Type} (f g : α → Bool)
    (h : ∀ a, f a = true → g a = true) :
    ∀ l : List α, (l.filter g).find? f = l.find? f := by
  intro l
  induction l with
  | nil => rfl
  | cons a l IH =>
    rw [List.filter_cons]
    by_cases hf : f a = true
    · rw [if_pos (h a hf), List.find?_cons_of_pos _ hf, List.find?_cons_of_pos _ hf]
    · by_cases hg : g a = true
      · rw [if_pos hg, List.find?_cons_of_neg _ hf, List.find?_cons_of_neg _ hf, IH]
      · rw [if_neg hg, List.find?_cons_of_neg _ hf, IH]

theorem writeFile_files_mem {fs : FS} {p : FPath} {c : String}
    {e : FPath × String} :
    e ∈ (fs.writeFile p c).files ↔ e = (p, c) ∨ (e ∈ fs.files ∧ e.1 ≠ p) := by
  simp [FS.writeFile, List.mem_filter]

theorem content_writeFile_self (fs : FS) (p : FPath) (c : String) :
    (fs.writeFile p c).content p = c := by
  unfold FS.content FS.writeFile
  rw [List.find?_cons_of_pos _ (by simp)]
  rfl

theorem content_writeFile_ne {fs : FS} {p q : FPath} {c : String} (h : q ≠ p) :
    (fs.writeFile p c).content q = fs.content q := by
  unfold FS.content FS.writeFile
  rw [List.find?_cons_of_neg _ (by simp [Ne.symm h]),
    find?_filter_of_imp _ _ (fun a ha => by
      simp only [decide_eq_true_eq] at ha
      simp [ha, h])]

theorem prefix_append_drop {a b : FPath} (h : a <+: b) :
    a ++ b.drop a.length = b := by
  obtain ⟨t, rfl⟩ := h
  rw [drop_left_self]

theorem snoc_inj {a b : FPath} {x y : String} (h : a ++ [x] = b ++ [y]) :
    a = b ∧ x = y := by
  have h1 : a = b := by
    have h2 := congrArg List.dropLast h
    rwa [List.dropLast_concat, List.dropLast_concat] at h2
  subst h1
  refine ⟨rfl, ?_⟩
  have h3 := List.append_cancel_left h
  simpa using h3

theorem src_ne_backup_side {source backup q t : FPath}
    (hsb : ¬ source <+: backup) (hbs : ¬ backup <+: source)
    (hq : source <+: q) (ht : backup <+: t) : q ≠ t := by
  rintro rfl
  rcases prefix_total hq ht with h | h
  · exact hsb h
  · exact hbs h

theorem safe_copy_writes {fs : FS} {src dst : FPath} (h : src ∈ fs.filePaths)
    (hd : dst ∉ fs.dirs) (hp : dst.dropLast ∈ fs.dirs) :
    (safe_copy fs src dst).1 = fs.writeFile dst (fs.content src) := by
  unfold safe_copy
  rw [if_pos (by simpa using h)]
  rw [if_neg (show ¬ fs.isDir dst = true by simpa using hd)]
  rw [if_neg (show ¬ fs.isDir dst = true by simpa using hd)]
  rw [if_pos (show fs.isDir dst.dropLast = true by simpa using hp)]

theorem safe_copy_file_cases {fs : FS} {src dst : FPath}
    (h : src ∈ fs.filePaths) :
    (safe_copy fs src dst).1 = fs ∨
    ((safe_copy fs src dst).1 =
        fs.writeFile (dst ++ [src.getLastD ""]) (fs.content src) ∧
      dst ∈ fs.dirs) ∨
    ((safe_copy fs src dst).1 = fs.writeFile dst (fs.content src) ∧
      dst ∉ fs.dirs) := by
  unfold safe_copy
  rw [if_pos (by simpa using h)]
  by_cases hdd : fs.isDir dst = true
  · rw [if_pos hdd]
    by_cases h1 : fs.isDir (dst ++ [src.getLastD ""]) = true
    · rw [if_pos h1]
      exact Or.inl rfl
    · rw [if_neg h1]
      by_cases h2 : fs.isDir (dst ++ [src.getLastD ""]).dropLast = true
      · rw [if_pos h2]
        exact Or.inr (Or.inl ⟨rfl, by simpa using hdd⟩)
      · rw [if_neg h2]
        exact Or.inl rfl
  · rw [if_neg hdd, if_neg hdd]
    by_cases h2 : fs.isDir dst.dropLast = true
    · rw [if_pos h2]
      exact Or.inr (Or.inr ⟨rfl, by simpa using hdd⟩)
    · rw [if_neg h2]
      exact Or.inl rfl

theorem safe_copy_step {source backup : FPath}
    (hsb : ¬ source <+: backup) (hbs : ¬ backup <+: source)
    {fs0 : FS} (hkd : KindsDisjoint fs0)
    {fs : FS} (hI : SrcIntact source fs0 fs)
    {p' : FPath} (hp' : source <+: p') {x : String}
    (hx : p' ++ [x] ∈ fs.filePaths)
    {D : FPath} (hD : source <+: D) (hDdir : D ∈ fs0.dirs) (n : String) :
    SrcIntact source fs0
      (safe_copy fs (p' ++ [x]) (backup ++ p'.drop source.length ++ [x])).1 ∧
    (CopyDone source backup fs0 D n fs →
      CopyDone source backup fs0 D n
        (safe_copy fs (p' ++ [x]) (backup ++ p'.drop source.length ++ [x])).1) := by
  unfold CopyDone
  rcases @safe_copy_file_cases fs (p' ++ [x])
      (backup ++ p'.drop source.length ++ [x]) hx with hc | ⟨hc, hdd⟩ | ⟨hc, hdd⟩
  · rw [hc]
    exact ⟨hI, fun hk => hk⟩
  · rw [getLastD_snoc] at hc
    have hbt : backup <+: backup ++ p'.drop source.length ++ [x] ++ [x] :=
      ⟨p'.drop source.length ++ [x] ++ [x], by simp [List.append_assoc]⟩
    rw [hc]
    constructor
    · refine ⟨hI.1, fun e he => ?_, fun q hq => ?_⟩
      · rw [writeFile_files_mem]
        have hne : e.1 ≠ backup ++ p'.drop source.length ++ [x] ++ [x] :=
          src_ne_backup_side hsb hbs he hbt
        constructor
        · rintro (rfl | ⟨hm, -⟩)
          · exact absurd rfl hne
          · exact (hI.2.1 e he).mp hm
        · intro hm
          exact Or.inr ⟨(hI.2.1 e he).mpr hm, hne⟩
      · have hne : q ≠ backup ++ p'.drop source.length ++ [x] ++ [x] :=
          src_ne_backup_side hsb hbs hq hbt
        rw [content_writeFile_ne hne]
        exact hI.2.2 q hq
    · rintro ⟨hcont, hmem⟩
      by_cases hdt : backup ++ D.drop source.length ++ [n] =
          backup ++ p'.drop source.length ++ [x] ++ [x]
      · exfalso
        obtain ⟨h1, h2⟩ := snoc_inj hdt
        have h3 : D.drop source.length = p'.drop source.length ++ [x] := by
          rw [List.append_assoc] at h1
          exact List.append_cancel_left h1
        have hDe : D = p' ++ [x] := by
          have h4 := prefix_append_drop hD
          rw [h3, ← List.append_assoc, prefix_append_drop hp'] at h4
          exact h4.symm
        have hDf : D ∈ fs0.filePaths := by
          rw [← hI.filePaths_iff hD, hDe]
          exact hx
        exact hkd D hDdir hDf
      · rw [content_writeFile_ne hdt]
        exact ⟨hcont, writeFile_filePaths_mem.mpr (Or.inr hmem)⟩
  · have hbt : backup <+: backup ++ p'.drop source.length ++ [x] :=
      ⟨p'.drop source.length ++ [x], by simp [List.append_assoc]⟩
    rw [hc]
    constructor
    · refine ⟨hI.1, fun e he => ?_, fun q hq => ?_⟩
      · rw [writeFile_files_mem]
        have hne : e.1 ≠ backup ++ p'.drop source.length ++ [x] :=
          src_ne_backup_side hsb hbs he hbt
        constructor
        · rintro (rfl | ⟨hm, -⟩)
          · exact absurd rfl hne
          · exact (hI.2.1 e he).mp hm
        · intro hm
          exact Or.inr ⟨(hI.2.1 e he).mpr hm, hne⟩
      · have hne : q ≠ backup ++ p'.drop source.length ++ [x] :=
          src_ne_backup_side hsb hbs hq hbt
        rw [content_writeFile_ne hne]
        exact hI.2.2 q hq
    · rintro ⟨hcont, hmem⟩
      by_cases hdt : backup ++ D.drop source.length ++ [n] =
          backup ++ p'.drop source.length ++ [x]
      · obtain ⟨h1, rfl⟩ := snoc_inj hdt
        have h3 : D.drop source.length = p'.drop source.length :=
          List.append_cancel_left h1
        have hDe : D = p' := by
          have h4 := prefix_append_drop hD
          rw [h3, prefix_append_drop hp'] at h4
          exact h4.symm
        rw [hdt, content_writeFile_self, hDe]
        exact ⟨hI.2.2 (p' ++ [n]) (hp'.trans (p'.prefix_append [n])),
          writeFile_filePaths_mem.mpr (Or.inl rfl)⟩
      · rw [content_writeFile_ne hdt]
        exact ⟨hcont, writeFile_filePaths_mem.mpr (Or.inr hmem)⟩

theorem syncFileFold_intact {source backup : FPath}
    (hsb : ¬ source <+: backup) (hbs : ¬ backup <+: source)
    {fs0 : FS} (hkd : KindsDisjoint fs0)
    {D : FPath} (hD : source <+: D) (hDdir : D ∈ fs0.dirs) (n : String)
    {fs : FS} {p : FPath} (hsp : source <+: p) (hI : SrcIntact source fs0 fs) :
    SrcIntact source fs0 ((fs.childFileNames p).foldl
      (fun acc file =>
        let c := safe_copy acc.1 (p ++ [file])
          (backup ++ p.drop source.length ++ [file])
        (c.1, acc.2 ++ c.2)) (fs, [])).1 ∧
    (CopyDone source backup fs0 D n fs →
      CopyDone source backup fs0 D n ((fs.childFileNames p).foldl
        (fun acc file =>
          let c := safe_copy acc.1 (p ++ [file])
            (backup ++ p.drop source.length ++ [file])
          (c.1, acc.2 ++ c.2)) (fs, [])).1) := by
  refine foldl_inv (fun acc : FS × List Ev => SrcIntact source fs0 acc.1 ∧
      (CopyDone source backup fs0 D n fs →
        CopyDone source backup fs0 D n acc.1))
    _ (fs.childFileNames p) (fs, []) ⟨hI, fun hk => hk⟩
    (fun acc x hx hacc => ?_)
  have hsx : source <+: p ++ [x] := hsp.trans (p.prefix_append [x])
  have hx' : p ++ [x] ∈ acc.1.filePaths := by
    rw [hacc.1.filePaths_iff hsx, ← hI.filePaths_iff hsx]
    exact mem_childFileNames.mp hx
  obtain ⟨hI', hkeep⟩ := safe_copy_step hsb hbs hkd hacc.1 hsp hx' hD hDdir n
  exact ⟨hI', fun hk => hkeep (hacc.2 hk)⟩

theorem syncVisit_intact {source backup : FPath}
    (hsb : ¬ source <+: backup) (hbs : ¬ backup <+: source)
    {fs0 : FS} (hkd : KindsDisjoint fs0)
    {D : FPath} (hD : source <+: D) (hDdir : D ∈ fs0.dirs) (n : String) :
    ∀ (fuel : Nat) (fs : FS) (p : FPath), source <+: p →
      SrcIntact source fs0 fs →
      SrcIntact source fs0 (syncVisit source backup 0 fuel fs p).1 ∧
      (CopyDone source backup fs0 D n fs →
        CopyDone source backup fs0 D n
          (syncVisit source backup 0 fuel fs p).1) := by
  intro fuel
  induction fuel with
  | zero =>
    intro fs p hsp hI
    by_cases hdir : p ∈ fs.dirs
    · have hpr : ¬((p.drop source.length).length > 0 ∧ 0 < 0) := by simp
      unfold syncVisit
      rw [if_pos (by simpa using hdir), if_neg hpr]
      exact syncFileFold_intact hsb hbs hkd hD hDdir n hsp hI
    · rw [syncVisit_not_dir hdir]
      exact ⟨hI, fun hk => hk⟩
  | succ fuel IH =>
    intro fs p hsp hI
    by_cases hdir : p ∈ fs.dirs
    · have hpr : ¬((p.drop source.length).length > 0 ∧ 0 < 0) := by simp
      unfold syncVisit
      rw [if_pos (by simpa using hdir), if_neg hpr]
      refine foldl_inv (fun acc : FS × List Ev => SrcIntact source fs0 acc.1 ∧
          (CopyDone source backup fs0 D n fs →
            CopyDone source backup fs0 D n acc.1))
        _ (fs.childDirNames p) _ ?_ ?_
      · exact syncFileFold_intact hsb hbs hkd hD hDdir n hsp hI
      · intro acc x _ hacc
        obtain ⟨hI', hkeep⟩ :=
          IH acc.1 (p ++ [x]) (hsp.trans (p.prefix_append [x])) hacc.1
        exact ⟨hI', fun hk => hkeep (hacc.2 hk)⟩
    · rw [syncVisit_not_dir hdir]
      exact ⟨hI, fun hk => hk⟩

theorem syncFileFold_writes {source backup : FPath}
    (hsb : ¬ source <+: backup) (hbs : ¬ backup <+: source)
    {fs0 : FS} (hkd : KindsDisjoint fs0)
    {D : FPath} (hD : source <+: D) (hDdir : D ∈ fs0.dirs) {n : String}
    (hfile : D ++ [n] ∈ fs0.filePaths)
    (hbp : backup ++ D.drop source.length ∈ fs0.dirs)
    (hbn : backup ++ D.drop source.length ++ [n] ∉ fs0.dirs) :
    ∀ (names : List String) (acc : FS × List Ev), SrcIntact source fs0 acc.1 →
      (∀ y ∈ names, D ++ [y] ∈ fs0.filePaths) → n ∈ names →
      SrcIntact source fs0 ((names.foldl
        (fun acc file =>
          let c := safe_copy acc.1 (D ++ [file])
            (backup ++ D.drop source.length ++ [file])
          (c.1, acc.2 ++ c.2)) acc)).1 ∧
      CopyDone source backup fs0 D n ((names.foldl
        (fun acc file =>
          let c := safe_copy acc.1 (D ++ [file])
            (backup ++ D.drop source.length ++ [file])
          (c.1, acc.2 ++ c.2)) acc)).1 := by
  intro names
  induction names with
  | nil =>
    intro acc _ _ hmem
    cases hmem
  | cons y rest IH =>
    intro acc hI hall hmem
    rw [List.foldl_cons]
    by_cases hy : y = n
    · subst hy
      have hsrc : D ++ [y] ∈ acc.1.filePaths := by
        rw [hI.filePaths_iff (hD.trans (D.prefix_append [y]))]
        exact hfile
      have hnd : backup ++ D.drop source.length ++ [y] ∉ acc.1.dirs := by
        rw [hI.1]
        exact hbn
      have hpd : (backup ++ D.drop source.length ++ [y]).dropLast ∈
          acc.1.dirs := by
        rw [List.dropLast_concat, hI.1]
        exact hbp
      have hw := safe_copy_writes hsrc hnd hpd
      have hInext : SrcIntact source fs0 (safe_copy acc.1 (D ++ [y])
          (backup ++ D.drop source.length ++ [y])).1 :=
        (safe_copy_step hsb hbs hkd hI hD hsrc hD hDdir y).1
      have hdone : CopyDone source backup fs0 D y (safe_copy acc.1 (D ++ [y])
          (backup ++ D.drop source.length ++ [y])).1 := by
        unfold CopyDone
        rw [hw, content_writeFile_self]
        exact ⟨hI.2.2 (D ++ [y]) (hD.trans (D.prefix_append [y])),
          writeFile_filePaths_mem.mpr (Or.inl rfl)⟩
      refine foldl_inv (fun a : FS × List Ev => SrcIntact source fs0 a.1 ∧
          CopyDone source backup fs0 D y a.1)
        _ rest _ ⟨hInext, hdone⟩ (fun a x hxm ha => ?_)
      have hx' : D ++ [x] ∈ a.1.filePaths := by
        rw [ha.1.filePaths_iff (hD.trans (D.prefix_append [x]))]
        exact hall x (List.mem_cons_of_mem _ hxm)
      obtain ⟨hI', hkeep⟩ := safe_copy_step hsb hbs hkd ha.1 hD hx' hD hDdir y
      exact ⟨hI', hkeep ha.2⟩
    · have hn' : n ∈ rest := by
        rcases List.mem_cons.mp hmem with h | h
        · exact absurd h.symm hy
        · exact h
      have hsrc : D ++ [y] ∈ acc.1.filePaths := by
        rw [hI.filePaths_iff (hD.trans (D.prefix_append [y]))]
        exact hall y (List.mem_cons_self y rest)
      have hInext : SrcIntact source fs0 (safe_copy acc.1 (D ++ [y])
          (backup ++ D.drop source.length ++ [y])).1 :=
        (safe_copy_step hsb hbs hkd hI hD hsrc hD hDdir n).1
      exact IH _ hInext (fun z hz => hall z (List.mem_cons_of_mem _ hz)) hn'

theorem syncVisit_copies {source backup : FPath}
    (hsb : ¬ source <+: backup) (hbs : ¬ backup <+: source)
    {fs0 : FS} (hkd : KindsDisjoint fs0) (hpc : ParentClosed fs0)
    {D : FPath} {n : String}
    (hD : source <+: D) (hDdir : D ∈ fs0.dirs) (hfile : D ++ [n] ∈ fs0.filePaths)
    (hbp : backup ++ D.drop source.length ∈ fs0.dirs)
    (hbn : backup ++ D.drop source.length ++ [n] ∉ fs0.dirs) :
    ∀ (fuel : Nat) (fs : FS) (p : FPath), source <+: p → p <+: D →
      SrcIntact source fs0 fs → DepthOK fs0 p fuel →
      CopyDone source backup fs0 D n (syncVisit source backup 0 fuel fs p).1 := by
  have hdirp : ∀ (fs : FS) (p : FPath), SrcIntact source fs0 fs → p <+: D →
      p ∈ fs.dirs := by
    intro fs p hI hpD
    rw [show fs.dirs = fs0.dirs from hI.1]
    by_cases hpe : p = D
    · rw [hpe]
      exact hDdir
    · exact hpc.prefix_mem_dirs D (Or.inl hDdir) p hpD hpe
  have hlist : ∀ (fs : FS) (p : FPath), source <+: p → SrcIntact source fs0 fs →
      (∀ y ∈ fs.childFileNames p, p ++ [y] ∈ fs0.filePaths) := by
    intro fs p hsp hI y hy
    rw [← hI.filePaths_iff (hsp.trans (p.prefix_append [y]))]
    exact mem_childFileNames.mp hy
  intro fuel
  induction fuel with
  | zero =>
    intro fs p hsp hpD hI hdo
    have hdir := hdirp fs p hI hpD
    have hpe : p = D := by
      by_contra hne
      obtain ⟨n1, rest, hq⟩ := prefix_cons_decompose hpD (Ne.symm hne)
      have hcD : p ++ [n1] <+: D := ⟨rest, by rw [hq]; simp⟩
      have hc0 : p ++ [n1] ∈ fs0.dirs := by
        by_cases hce : p ++ [n1] = D
        · rw [hce]
          exact hDdir
        · exact hpc.prefix_mem_dirs D (Or.inl hDdir) _ hcD hce
      have hlen := hdo (p ++ [n1]) hc0 (p.prefix_append [n1])
      simp at hlen
    subst hpe
    have hpr : ¬((p.drop source.length).length > 0 ∧ 0 < 0) := by simp
    unfold syncVisit
    rw [if_pos (by simpa using hdir), if_neg hpr]
    have hall : ∀ y ∈ fs.childFileNames p, p ++ [y] ∈ fs0.filePaths :=
      hlist fs p hsp hI
    have hmem : n ∈ fs.childFileNames p := by
      rw [mem_childFileNames, hI.filePaths_iff (hD.trans (p.prefix_append [n]))]
      exact hfile
    exact (syncFileFold_writes hsb hbs hkd hD hDdir hfile hbp hbn
      (fs.childFileNames p) (fs, []) hI hall hmem).2
  | succ fuel IH =>
    intro fs p hsp hpD hI hdo
    have hdir := hdirp fs p hI hpD
    have hpr : ¬((p.drop source.length).length > 0 ∧ 0 < 0) := by simp
    unfold syncVisit
    rw [if_pos (by simpa using hdir), if_neg hpr]
    by_cases hpe : p = D
    · subst hpe
      have hall : ∀ y ∈ fs.childFileNames p, p ++ [y] ∈ fs0.filePaths :=
        hlist fs p hsp hI
      have hmem : n ∈ fs.childFileNames p := by
        rw [mem_childFileNames, hI.filePaths_iff (hD.trans (p.prefix_append [n]))]
        exact hfile
      obtain ⟨hIr, hdone⟩ := syncFileFold_writes hsb hbs hkd hD hDdir hfile
        hbp hbn (fs.childFileNames p) (fs, []) hI hall hmem
      exact (foldl_inv (fun a : FS × List Ev => SrcIntact source fs0 a.1 ∧
          CopyDone source backup fs0 p n a.1)
        (fun acc x =>
          let r' := syncVisit source backup 0 fuel acc.1 (p ++ [x])
          (r'.1, acc.2 ++ r'.2))
        (fs.childDirNames p) _ ⟨hIr, hdone⟩
        (fun a x _ ha => by
          obtain ⟨hI', hkeep⟩ := syncVisit_intact hsb hbs hkd hD hDdir n fuel
            a.1 (p ++ [x]) (hsp.trans (p.prefix_append [x])) ha.1
          exact ⟨hI', hkeep ha.2⟩)).2
    · obtain ⟨n1, rest, hq⟩ := prefix_cons_decompose hpD (Ne.symm hpe)
      have hcD : p ++ [n1] <+: D := ⟨rest, by rw [hq]; simp⟩
      have hc0 : p ++ [n1] ∈ fs0.dirs := by
        by_cases hce : p ++ [n1] = D
        · rw [hce]
          exact hDdir
        · exact hpc.prefix_mem_dirs D (Or.inl hDdir) _ hcD hce
      have hn1 : n1 ∈ fs.childDirNames p := by
        rw [mem_childDirNames, show fs.dirs = fs0.dirs from hI.1]
        exact hc0
      have hIr := (syncFileFold_intact hsb hbs hkd hD hDdir n hsp hI).1
      have aux : ∀ (names : List String) (a : FS × List Ev),
          SrcIntact source fs0 a.1 → n1 ∈ names →
          CopyDone source backup fs0 D n
            ((names.foldl (fun acc x =>
              let r' := syncVisit source backup 0 fuel acc.1 (p ++ [x])
              (r'.1, acc.2 ++ r'.2)) a)).1 := by
        intro names
        induction names with
        | nil =>
          intro a _ hm
          cases hm
        | cons y ys IHn =>
          intro a ha hm
          rw [List.foldl_cons]
          by_cases hy : y = n1
          · subst hy
            have hdone := IH a.1 (p ++ [y]) (hsp.trans (p.prefix_append [y]))
              hcD ha hdo.child
            have hInext := (syncVisit_intact hsb hbs hkd hD hDdir n fuel a.1
              (p ++ [y]) (hsp.trans (p.prefix_append [y])) ha).1
            exact (foldl_inv (fun b : FS × List Ev =>
                SrcIntact source fs0 b.1 ∧
                CopyDone source backup fs0 D n b.1)
              (fun acc x =>
                let r' := syncVisit source backup 0 fuel acc.1 (p ++ [x])
                (r'.1, acc.2 ++ r'.2))
              ys ((syncVisit source backup 0 fuel a.1 (p ++ [y])).1,
                a.2 ++ (syncVisit source backup 0 fuel a.1 (p ++ [y])).2)
              ⟨hInext, hdone⟩
              (fun b x _ hb => by
                obtain ⟨hI', hkeep⟩ := syncVisit_intact hsb hbs hkd hD hDdir n
                  fuel b.1 (p ++ [x]) (hsp.trans (p.prefix_append [x])) hb.1
                exact ⟨hI', hkeep hb.2⟩)).2
          · rcases List.mem_cons.mp hm with h | h
            · exact absurd h.symm hy
            · have hInext := (syncVisit_intact hsb hbs hkd hD hDdir n fuel a.1
                (p ++ [y]) (hsp.trans (p.prefix_append [y])) ha).1
              exact IHn _ hInext h
      exact aux (fs.childDirNames p) _ hIr hn1

/-! Claim theorems. -/

/-- C1: for every pair of separate-rooted trees, after clear_deleted(dry
=False) completes (deletions modelled as succeeding), every backup file
whose counterpart path exists in the source remains with its content, and
every file directly inside a directory whose source counterpart exists but
whose own source counterpart is absent is removed; in particular, on the
spec's worked example, dir1/file1.txt and file2.txt remain and
dir1/extra_file.txt is the one deletion performed. -/
theorem claim_C1 :
    (∀ (s : Sync) (fs : FS) (e : FPath × String), s.SeparateRoots →
      ParentClosed fs → e ∈ fs.files → s.backup <+: e.1 →
      FS.Mem fs (s.source ++ e.1.drop s.backup.length) →
      e ∈ (s.clear_deleted false fs).1.files) ∧
    (∀ (s : Sync) (fs : FS) (q : FPath), s.SeparateRoots → ParentClosed fs →
      q ∈ fs.filePaths → s.backup <+: q.dropLast →
      FS.Mem fs (s.source ++ q.dropLast.drop s.backup.length) →
      ¬ FS.Mem fs (s.source ++ q.drop s.backup.length) →
      q ∉ (s.clear_deleted false fs).1.filePaths) ∧
    ((exSync.clear_deleted false exFS).1.filePaths =
      [["src", "dir1", "file1.txt"], ["src", "file2.txt"],
       ["bak", "dir1", "file1.txt"], ["bak", "file2.txt"]] ∧
     (exSync.clear_deleted false exFS).2 =
       [Ev.delFile ["bak", "dir1", "extra_file.txt"]]) := by
  refine ⟨?_, ?_, by decide, by decide⟩
  · intro s fs e hsep hpc he hbe hsrc
    exact clearVisit_keep_file hsep (fs.depthBound + 1) fs s.backup e hpc
      List.prefix_rfl he hbe hsrc
  · intro s fs q hsep hpc hq hbd hsrcD hsrcq
    have hqnil : q ≠ [] := (hpc.2 q hq).1
    have hlen : s.backup.length < q.length := by
      have h1 := hbd.length_le
      have h2 : q.dropLast.length = q.length - 1 := List.length_dropLast q
      have h3 : 0 < q.length := List.length_pos.mpr hqnil
      omega
    refine clearVisit_remove_file hsep (fs.depthBound + 1) fs s.backup q hpc
      (depthOK_top fs s.backup) List.prefix_rfl hq
      (hbd.trans (dropLast_prefix_self q)) ?_ hsrcq
    intro hqb
    rw [hqb] at hlen
    omega

/-- C1 witness: the concrete worked example, with the universal parts
instantiated at the kept file dir1/file1.txt and the removed file
dir1/extra_file.txt. -/
theorem claim_C1_witness :
    (["bak", "dir1", "file1.txt"], "content1") ∈
      (exSync.clear_deleted false exFS).1.files ∧
    ["bak", "dir1", "extra_file.txt"] ∉
      (exSync.clear_deleted false exFS).1.filePaths :=
  ⟨claim_C1.1 exSync exFS (["bak", "dir1", "file1.txt"], "content1")
      (by decide) (by decide) (by decide) (by decide) (by decide),
   claim_C1.2.1 exSync exFS ["bak", "dir1", "extra_file.txt"]
      (by decide) (by decide) (by decide) (by decide) (by decide) (by decide)⟩

/-- C4: on separate-rooted well-formed trees, after one real run of
clear_deleted (deletions modelled as succeeding, matching the claim's
assumption that no retries were exhausted) the backup tree contains no
orphan — every surviving path strictly below backup_root has its source
counterpart present — and a second immediate run performs no deletions and
emits no decisions: it returns the state unchanged with an empty decision
list. -/
theorem claim_C4 (s : Sync) (fs : FS) (hsep : s.SeparateRoots)
    (hpc : ParentClosed fs) (hkd : KindsDisjoint fs) :
    (∀ q, FS.Mem (s.clear_deleted false fs).1 q → s.backup <+: q →
        q ≠ s.backup →
        FS.Mem (s.clear_deleted false fs).1
          (s.source ++ q.drop s.backup.length)) ∧
    s.clear_deleted false (s.clear_deleted false fs).1 =
      ((s.clear_deleted false fs).1, []) := by
  have hclean := clearVisit_clean hsep (fs.depthBound + 1) fs s.backup hpc hkd
    (depthOK_top fs s.backup) List.prefix_rfl
  exact ⟨hclean.1,
    clearVisit_clean_noop _ _ _ List.prefix_rfl hclean.1 hclean.2⟩

/-- C4 witness: the worked example — after the real run, the surviving
backup file file2.txt is source-backed, and a second run is the identity
with no decisions. -/
theorem claim_C4_witness :
    FS.Mem (exSync.clear_deleted false exFS).1
      (exSync.source ++
        (["bak", "file2.txt"] : FPath).drop exSync.backup.length) ∧
    exSync.clear_deleted false (exSync.clear_deleted false exFS).1 =
      ((exSync.clear_deleted false exFS).1, []) :=
  ⟨(claim_C4 exSync exFS (by decide) (by decide) (by decide)).1
      ["bak", "file2.txt"] (by decide) (by decide) (by decide),
   (claim_C4 exSync exFS (by decide) (by decide) (by decide)).2⟩

/-- C2 counterexample: in dry-run mode, the walk does descend into a
directory classified delete-subtree and does classify its subdirectories
individually: on exFS2 (backup dir3 with file orphaned_file.txt and
subdirectory sub, no dir3 in source), the dry run emits a delete-subtree
decision for dir3 and another, individual one for dir3/sub — contradicting
the claim that no file or subdirectory inside D is ever classified, in
dry-run mode as well as in real-run mode. -/
theorem claim_C2_counterexample :
    Ev.delTree ["bak", "dir3"] ∈ (exSync.clear_deleted true exFS2).2 ∧
    ["bak", "dir3", "sub"] ∈ exFS2.dirs ∧
    Ev.delTree ["bak", "dir3", "sub"] ∈ (exSync.clear_deleted true exFS2).2 := by
  decide

/-- C2 as amended: in real-run mode (deletions succeeding), for every
directory D of the backup tree whose source counterpart is absent, no
deletion decision of either kind is ever emitted for any path strictly
inside D — the subtree is removed whole and pruned from the walk; in
dry-run mode, files at or below such a D are still never individually
classified (every directory on the way takes the delete-subtree branch and
skips its file loop), but the walk does descend into D and classifies each
surviving subdirectory as its own delete-subtree, as exFS2 shows
concretely. -/
theorem claim_C2 :
    (∀ (s : Sync) (fs : FS) (D : FPath),
      ¬ FS.Mem fs (s.source ++ D.drop s.backup.length) → s.backup <+: D →
      ∀ q, D <+: q → q ≠ D →
        Ev.delTree q ∉ (s.clear_deleted false fs).2 ∧
        Ev.delFile q ∉ (s.clear_deleted false fs).2) ∧
    (∀ (s : Sync) (fs : FS) (D : FPath), ParentClosed fs → KindsDisjoint fs →
      D ∈ fs.dirs → ¬ FS.Mem fs (s.source ++ D.drop s.backup.length) →
      ∀ q, D <+: q → Ev.delFile q ∉ (s.clear_deleted true fs).2) ∧
    ((exSync.clear_deleted true exFS2).2 =
      [Ev.delTree ["bak", "dir3"], Ev.delTree ["bak", "dir3", "sub"]] ∧
     (exSync.clear_deleted false exFS2).2 = [Ev.delTree ["bak", "dir3"]]) := by
  refine ⟨?_, ?_, by decide, by decide⟩
  · intro s fs D hsrcD hbD q hDq hqne
    refine clearVisit_isolated (fs.depthBound + 1) fs s.backup D hsrcD ?_
      q hDq hqne
    intro hDb
    exact Or.inl
      ((hDb.eq_of_length (Nat.le_antisymm hDb.length_le hbD.length_le)).symm)
  · intro s fs D hpc hkd hD hsrcD q hDq
    exact clearVisit_dry_no_delFile (fs.depthBound + 1) fs s.backup D hpc hkd
      hD hsrcD q hDq

/-- C2 witness: on exFS2, in the real run nothing inside dir3 is ever the
subject of a decision, and in the dry run the orphaned file inside dir3 is
never individually classified. -/
theorem claim_C2_witness :
    (Ev.delTree ["bak", "dir3", "sub"] ∉ (exSync.clear_deleted false exFS2).2 ∧
     Ev.delFile ["bak", "dir3", "orphaned_file.txt"] ∉
       (exSync.clear_deleted false exFS2).2) ∧
    Ev.delFile ["bak", "dir3", "orphaned_file.txt"] ∉
      (exSync.clear_deleted true exFS2).2 :=
  ⟨⟨(claim_C2.1 exSync exFS2 ["bak", "dir3"] (by decide) (by decide)
        ["bak", "dir3", "sub"] (by decide) (by decide)).1,
    (claim_C2.1 exSync exFS2 ["bak", "dir3"] (by decide) (by decide)
        ["bak", "dir3", "orphaned_file.txt"] (by decide) (by decide)).2⟩,
   claim_C2.2.1 exSync exFS2 ["bak", "dir3"] (by decide) (by decide)
     (by decide) (by decide) ["bak", "dir3", "orphaned_file.txt"] (by decide)⟩

/-- C3 (evidence for the code bug): the dry switch is honored by
clear_deleted — for every pair of roots, every fuel and every filesystem
state the walk with dry=true returns the filesystem unchanged — but
sync_level ignores its dry_run parameter entirely: on the concrete
replication scenario exFS3, called with dry_run=true, it still mutates the
backup tree, overwriting b/d2/g with the source bytes. -/
theorem claim_C3 :
    (∀ (s : Sync) (fuel : Nat) (fs : FS) (p : FPath),
        (clearVisit s true fuel fs p).1 = fs) ∧
    (sync_level ["s"] ["b"] 0 0 true exFS3).1 ≠ exFS3 ∧
    (["b", "d2", "g"], "y") ∈ (sync_level ["s"] ["b"] 0 0 true exFS3).1.files := by
  refine ⟨clearVisit_dry_fs, ?_, ?_⟩ <;> decide

/-- C5: when every attempt of a retry-wrapped deletion fails, the wrapped
operation is invoked exactly max_retries + 1 times (2 under the default
policy max_retries = 1), with one fixed-delay sleep between consecutive
attempts, and the wrapper finishes by returning the skipped None result
rather than raising, so the caller's walk proceeds to the next node. -/
theorem claim_C5 (max_retries : Nat) (succeeds : Nat → Bool)
    (h : ∀ i, succeeds i = false) :
    (retry_on_failure max_retries succeeds).invocations = max_retries + 1 ∧
    (retry_on_failure max_retries succeeds).skipped = true ∧
    (retry_on_failure max_retries succeeds).sleeps = max_retries ∧
    (retry_on_failure 1 succeeds).invocations = 2 := by
  unfold retry_on_failure
  rw [retryGo_all_fail h max_retries 0, retryGo_all_fail h 1 0]
  exact ⟨rfl, rfl, rfl, rfl⟩

/-- C5 witness: the always-failing operation under the default policy. -/
theorem claim_C5_witness :
    (retry_on_failure 1 (fun _ => false)).invocations = 1 + 1 ∧
    (retry_on_failure 1 (fun _ => false)).skipped = true ∧
    (retry_on_failure 1 (fun _ => false)).sleeps = 1 ∧
    (retry_on_failure 1 (fun _ => false)).invocations = 2 :=
  claim_C5 1 (fun _ => false) (fun _ => rfl)

/-- C6 counterexample: under the default policy with every attempt failing,
both attempts fail (2 invocations) but only one warning is logged — the
final failed attempt is logged at error severity, not warning severity — so
it is false that a warning is logged for each failed attempt. -/
theorem claim_C6_counterexample :
    (retry_on_failure 1 (fun _ => false)).invocations = 2 ∧
    (retry_on_failure 1 (fun _ => false)).warnings ≠ 2 ∧
    (retry_on_failure 1 (fun _ => false)).warnings = 1 := by decide

/-- C6 as amended: a warning is logged for each failed non-final attempt
(max_retries warnings when every attempt fails) and exactly one error is
logged on final exhaustion; when the first attempt fails and the second
succeeds under the default policy, exactly one warning and no error is
logged. -/
theorem claim_C6 (max_retries : Nat) (succeeds : Nat → Bool) :
    ((∀ i, succeeds i = false) →
      (retry_on_failure max_retries succeeds).warnings = max_retries ∧
      (retry_on_failure max_retries succeeds).errors = 1) ∧
    (succeeds 0 = false → succeeds 1 = true →
      (retry_on_failure 1 succeeds).warnings = 1 ∧
      (retry_on_failure 1 succeeds).errors = 0) := by
  constructor
  · intro h
    unfold retry_on_failure
    rw [retryGo_all_fail h max_retries 0]
    exact ⟨rfl, rfl⟩
  · intro h0 h1
    rw [retry_fail_then_ok h0 h1]
    exact ⟨rfl, rfl⟩

/-- C6 witness: both retry scenarios at concrete attempt oracles. -/
theorem claim_C6_witness :
    ((retry_on_failure 1 (fun _ => false)).warnings = 1 ∧
     (retry_on_failure 1 (fun _ => false)).errors = 1) ∧
    ((retry_on_failure 1 (fun i => decide (i = 1))).warnings = 1 ∧
     (retry_on_failure 1 (fun i => decide (i = 1))).errors = 0) :=
  ⟨(claim_C6 1 (fun _ => false)).1 (fun _ => rfl),
   (claim_C6 1 (fun i => decide (i = 1))).2 (by decide) (by decide)⟩

/-- C7 counterexample: a listed file that has vanished before classification
(ghost.txt is not in the filesystem) whose source counterpart is also absent
still receives a delete-file decision — the walk does emit a decision for a
vanished node, contradicting the claim that no decision is emitted. -/
theorem claim_C7_counterexample :
    ["bak", "ghost.txt"] ∉ exFS.filePaths ∧
    ["bak", "ghost.txt"] ∉ exFS.dirs ∧
    (clearBody exSync false exFS ["bak"] ["ghost.txt"]).2 =
      [Ev.delFile ["bak", "ghost.txt"]] := by decide

/-- C7 as amended: a listed directory that no longer exists when reached is
silently skipped — the body emits no decision and mutates nothing, and the
walk skips a vanished subdirectory silently — and a listed file whose source
counterpart exists is never the subject of a delete-file decision even if it
has vanished; but a vanished file whose source counterpart is absent still
receives a delete-file decision (whose execution then fails, is retried and
is skipped without raising). -/
theorem claim_C7 :
    (∀ (s : Sync) (dry : Bool) (fs : FS) (root : FPath) (files : List String),
      ¬ FS.Mem fs root → clearBody s dry fs root files = (fs, [])) ∧
    (∀ (s : Sync) (dry : Bool) (fuel : Nat) (fs : FS) (p : FPath),
      p ∉ fs.dirs → clearVisit s dry fuel fs p = (fs, [])) ∧
    (∀ (s : Sync) (dry : Bool) (fs : FS) (root : FPath) (files : List String)
        (file : String), s.SeparateRoots → s.backup <+: root →
      FS.Mem fs (s.source ++ root.drop s.backup.length ++ [file]) →
      Ev.delFile (root ++ [file]) ∉ (clearBody s dry fs root files).2) := by
  refine ⟨fun s dry fs root files h => clearBody_vanished h,
          fun s dry fuel fs p h => clearVisit_not_dir h,
          fun s dry fs root files file hsep hbr hmem => ?_⟩
  by_cases h1 : FS.Mem fs root
  · by_cases h2 : FS.Mem fs (s.source ++ root.drop s.backup.length)
    · rw [clearBody_keep h1 h2]
      have key := foldl_inv (fun acc : FS × List Ev =>
          FS.Mem acc.1 (s.source ++ root.drop s.backup.length ++ [file]) ∧
          Ev.delFile (root ++ [file]) ∉ acc.2)
        (clearFileStep s dry root) files (fs, []) ⟨hmem, by simp⟩
        (fun acc x _ hacc => by
          by_cases hc : FS.Mem acc.1 (s.source ++ root.drop s.backup.length ++ [x])
          · rw [clearFileStep_mem hc]
            exact hacc
          · rw [clearFileStep_not_mem hc]
            have hxf : x ≠ file := by
              rintro rfl
              exact hc hacc.1
            constructor
            · cases dry with
              | true => exact hacc.1
              | false =>
                rcases hacc.1 with hd | hf
                · exact Or.inl hd
                · refine Or.inr (removeFile_filePaths_mem.mpr ⟨hf, fun he => ?_⟩)
                  refine hsep.not_both (q := root ++ [x])
                    (hbr.trans (root.prefix_append [x])) ?_
                  rw [← he]
                  exact (s.source.prefix_append
                    (root.drop s.backup.length)).trans
                      ((s.source ++ root.drop s.backup.length).prefix_append [file])
            · intro hin
              rcases List.mem_append.mp hin with hin | hin
              · exact hacc.2 hin
              · simp at hin
                exact hxf hin.symm)
      exact key.2
    · rw [clearBody_del h1 h2]
      simp
  · rw [clearBody_vanished h1]
    simp

/-- C7 witness: the amended behaviors at concrete instances — a vanished
directory yields no decision and no mutation, both at the body and at the
walk level, and a listed file with an existing source counterpart yields no
delete-file decision. -/
theorem claim_C7_witness :
    clearBody exSync false exFS ["bak", "gone"] ["f"] = (exFS, []) ∧
    clearVisit exSync false 3 exFS ["bak", "gone"] = (exFS, []) ∧
    Ev.delFile ["bak", "file2.txt"] ∉
      (clearBody exSync false exFS ["bak"] ["file2.txt", "ghost.txt"]).2 :=
  ⟨claim_C7.1 exSync false exFS ["bak", "gone"] ["f"] (by decide),
   claim_C7.2.1 exSync false 3 exFS ["bak", "gone"] (by decide),
   claim_C7.2.2 exSync false exFS ["bak"] ["file2.txt", "ghost.txt"]
     "file2.txt" (by decide) (by decide) (by decide)⟩

/-- C8 counterexample: with unlimited depth, sync_level leaves the source
directory d with no corresponding backup directory and its file uncopied —
the replicator never creates directories, contrary to the claim that every
source directory gets a corresponding backup directory created if missing
and every file has its bytes copied. -/
theorem claim_C8_counterexample :
    ["s", "d"] ∈ exFS8.dirs ∧ ["s", "d", "f"] ∈ exFS8.filePaths ∧
    ["b", "d"] ∉ (sync_level ["s"] ["b"] 0 0 false exFS8).1.dirs ∧
    ["b", "d", "f"] ∉ (sync_level ["s"] ["b"] 0 0 false exFS8).1.filePaths := by
  decide

/-- C8 as amended: sync_level never creates a directory (for all roots, depth
limits, fuel and states, the directory list of the result equals that of the
input), so a file whose backup parent directory is missing fails to copy; but
for every pair of separate roots and every well-formed state, every source
file whose backup parent directory already exists (and whose backup-equivalent
path is not itself an existing directory) has its bytes copied to the
backup-equivalent path, overwriting any existing file there — a guarantee that
holds for each file individually, whatever happens to the other files, because
each failure is caught and logged without stopping the walk.  On exFS3:
copying d1/f fails (no b/d1 exists), the walk continues, and d2/g is still
copied over the stale backup copy. -/
theorem claim_C8 :
    (∀ (source backup : FPath) (md fuel : Nat) (fs : FS) (p : FPath),
        (syncVisit source backup md fuel fs p).1.dirs = fs.dirs) ∧
    (∀ (source backup : FPath) (depth : Nat) (dry_run : Bool) (fs : FS)
        (D : FPath) (n : String),
        ¬ source <+: backup → ¬ backup <+: source →
        KindsDisjoint fs → ParentClosed fs →
        source <+: D → D ∈ fs.dirs → D ++ [n] ∈ fs.filePaths →
        backup ++ D.drop source.length ∈ fs.dirs →
        backup ++ D.drop source.length ++ [n] ∉ fs.dirs →
        (sync_level source backup depth 0 dry_run fs).1.content
            (backup ++ D.drop source.length ++ [n]) = fs.content (D ++ [n]) ∧
          backup ++ D.drop source.length ++ [n] ∈
            (sync_level source backup depth 0 dry_run fs).1.filePaths) ∧
    (sync_level ["s"] ["b"] 0 0 false exFS3).2 =
      [Ev.copyLog ["s", "d1", "f"] ["b", "d1", "f"],
       Ev.copyErr ["s", "d1", "f"],
       Ev.copyLog ["s", "d2", "g"] ["b", "d2", "g"]] ∧
    (["b", "d2", "g"], "y") ∈ (sync_level ["s"] ["b"] 0 0 false exFS3).1.files ∧
    (["b", "d2", "g"], "old") ∉ (sync_level ["s"] ["b"] 0 0 false exFS3).1.files ∧
    ["b", "d1", "f"] ∉ (sync_level ["s"] ["b"] 0 0 false exFS3).1.filePaths := by
  refine ⟨fun source backup md fuel fs p =>
      (syncVisit_dirs_files source backup md fuel fs p).1,
    fun source backup depth dry_run fs D n hsb hbs hkd hpc hD hDdir hfile hbp
        hbn =>
      syncVisit_copies hsb hbs hkd hpc hD hDdir hfile hbp hbn
        (fs.depthBound + 1) fs source List.prefix_rfl hD
        (srcIntact_refl source fs) (depthOK_top fs source),
    ?_, ?_, ?_, ?_⟩ <;> decide

/-- C8 witness: the universal copy guarantee instantiated on exFS3 at the
source file s/d2/g, whose backup parent b/d2 exists — after the run the
backup-equivalent path holds the source bytes ("y", displacing the stale
"old"), even though the copy of s/d1/f before it failed. -/
theorem claim_C8_witness :
    (sync_level ["s"] ["b"] 0 0 false exFS3).1.content
        (["b"] ++ (["s", "d2"] : FPath).drop (["s"] : FPath).length ++ ["g"]) =
      exFS3.content (["s", "d2"] ++ ["g"]) ∧
    ["b"] ++ (["s", "d2"] : FPath).drop (["s"] : FPath).length ++ ["g"] ∈
      (sync_level ["s"] ["b"] 0 0 false exFS3).1.filePaths :=
  claim_C8.2.1 ["s"] ["b"] 0 false exFS3 ["s", "d2"] "g"
    (by decide) (by decide) (by decide) (by decide) (by decide) (by decide)
    (by decide) (by decide) (by decide)

/-- C9 counterexample: constructing Sync never validates its arguments —
even a string containing a NUL byte, which no operating system accepts in a
path and which is not resolvable to an absolute location, is accepted
without any fault, contradicting the claim that invalid argument strings
surface a fatal setup fault at construction time. -/
theorem claim_C9_counterexample :
    syncConstruct "bad\u0000path" "also\u0000bad" =
      Except.ok ⟨"bad\u0000path", "also\u0000bad"⟩ := rfl

/-- C9 as amended: Sync.__init__ merely stores Path(source) and Path(backup);
pathlib's Path construction on a str performs no validation, no resolution
and no filesystem access, so every pair of argument strings is accepted
(in particular paths that do not yet exist, whose existence is only checked
at walk time). -/
theorem claim_C9 : ∀ source backup : String,
    syncConstruct source backup = Except.ok ⟨source, backup⟩ :=
  fun _ _ => rfl

/-- C10 counterexample: when the source root lies inside the backup root
(source b/s, backup b), clear_deleted(dry=False) destroys the source tree:
the file b/s/f lies under source_root, exists beforehand, and is gone
afterwards — so it is false that every invocation leaves the source tree
untouched. -/
theorem claim_C10_counterexample :
    FS.Mem exFSNested ["b", "s", "f"] ∧
    exSyncNested.source <+: ["b", "s", "f"] ∧
    ¬ FS.Mem (exSyncNested.clear_deleted false exFSNested).1 ["b", "s", "f"] := by
  decide

/-- C10 as amended: provided the two roots name separate trees (neither
equal to nor inside the other), clear_deleted — dry or not — neither
creates, modifies nor deletes anything under source_root: every deletion
targets a walked backup directory or a file directly inside one, and all of
those lie under backup_root. -/
theorem claim_C10 (s : Sync) (dry : Bool) (fs : FS) (q : FPath) (c : String)
    (hsep : s.SeparateRoots) (hq : s.source <+: q) :
    (q ∈ (s.clear_deleted dry fs).1.dirs ↔ q ∈ fs.dirs) ∧
    ((q, c) ∈ (s.clear_deleted dry fs).1.files ↔ (q, c) ∈ fs.files) :=
  ⟨clearVisit_src_dirs_stable hsep List.prefix_rfl hq,
   clearVisit_src_files_stable hsep List.prefix_rfl hq⟩

/-- C10 witness: the source-side file of the worked example is untouched by
a real run. -/
theorem claim_C10_witness :
    (["src", "file2.txt"] ∈ (exSync.clear_deleted false exFS).1.dirs ↔
      ["src", "file2.txt"] ∈ exFS.dirs) ∧
    ((["src", "file2.txt"], "content2") ∈ (exSync.clear_deleted false exFS).1.files ↔
      (["src", "file2.txt"], "content2") ∈ exFS.files) :=
  claim_C10 exSync false exFS ["src", "file2.txt"] "content2"
    (by decide) (by decide)

end BackupSync
